import Mathlib

/-!
# Verification of the go-cache repository's cache engines

Shallow embedding of the LRU / LRU-K cache engines
(`src/geecache/lru/lru.go`, `src/geecache/lru/lru_k.go`), the cache
facade and group coordinator (`src/mygocache/mygocache.go` and the
facade file), the bounded goroutine pool
(`src/mygocache/pool/object_pool.go`), and a spec-modelled
single-flight coordinator.

Modelling conventions:
* Go `time.Now().Unix()` is an explicit `now : Int` argument.
* The `OnEvicted` callback is modelled by returning the list of
  `(key, value)` pairs for which the callback fires, in order.
* The Go doubly-linked recency list plus the `cache` map index is
  modelled by a single `List (Entry V)` (front = most recently used);
  `c.cache[key]` lookup becomes `List.find?` on the key, which agrees
  with Go under the list/index in-sync invariant the code maintains.
* Go maps (`heapMap`, LRU-K `history`) are modelled as functions
  `String → Option _` with pointwise update.
* Unbounded Go `for` loops are modelled by structurally recursive
  functions whose fuel argument bounds the number of iterations by a
  quantity the loop strictly decreases (list length for the eviction
  loop, the index for `heapifyUp`, `len(heap)` for `heapifyDown`), so
  at every call site the model computes the loop's exit state whenever
  the Go loop terminates.
-/

namespace GoCache

/-- Go's `Value interface { Len() int }` from `lru.go`. -/
class GoValue (V : Type) where
  len : V → Nat

instance : GoValue String := ⟨String.length⟩

/-- `ByteView` from the mygocache package: an immutable byte payload;
`Len()` is the byte count. Bytes are modelled as `Nat`s. -/
structure ByteView where
  b : List Nat
deriving DecidableEq, Repr

instance : GoValue ByteView := ⟨fun v => v.b.length⟩

/-- `cloneBytes` copies a byte slice; with value semantics it is the
identity. -/
def cloneBytes (b : List Nat) : List Nat := b

/-! ## Expiration min-heap (`lru.go` lines 172-254, `lru_k.go` lines 255-327) -/

/-- `pool.HeapItem`: `(Key, ExpiresAt)`. -/
structure HeapItem where
  key : String
  expiresAt : Int
deriving DecidableEq, Repr

/-- The zero `HeapItem`, also the state `HeapItemPool.Put` resets an
item to. -/
def defaultItem : HeapItem := ⟨"", 0⟩

/-- Go map `heapMap : key → index`. -/
def HeapMap : Type := String → Option Nat

def hmInsert (m : HeapMap) (k : String) (i : Nat) : HeapMap :=
  fun k' => if k' = k then some i else m k'

def hmErase (m : HeapMap) (k : String) : HeapMap :=
  fun k' => if k' = k then none else m k'

/-- The heap array together with its key→index map. -/
structure HeapState where
  arr : List HeapItem
  map : HeapMap

/-- `heapifyUp` (identical in `lru.go` and `lru_k.go`). The Go loop
runs while `index > 0`, each iteration moving to `parent = (index-1)/2
< index`, so `index` iterations always suffice: the first argument is
that fuel and the functions below invoke it with `fuel = index`. -/
def heapifyUpF : Nat → HeapState → Nat → HeapState
  | 0, h, _ => h
  | fuel + 1, h, index =>
    if index = 0 then h
    else
      let parent := (index - 1) / 2
      if (h.arr.getD parent defaultItem).expiresAt ≤ (h.arr.getD index defaultItem).expiresAt then
        h
      else
        let a := h.arr.getD index defaultItem
        let b := h.arr.getD parent defaultItem
        let arr' := (h.arr.set index b).set parent a
        let map' := hmInsert (hmInsert h.map b.key index) a.key parent
        heapifyUpF fuel ⟨arr', map'⟩ parent

def heapifyUp (h : HeapState) (index : Nat) : HeapState :=
  heapifyUpF index h index

/-- The `smallest` selection of one `heapifyDown` iteration: start
from `index`, prefer the left child when in range and strictly
smaller, then the right child likewise. -/
def smallestIdx (h : HeapState) (index : Nat) : Nat :=
  let n := h.arr.length
  let left := 2 * index + 1
  let right := 2 * index + 2
  let s1 := if left < n ∧ (h.arr.getD left defaultItem).expiresAt < (h.arr.getD index defaultItem).expiresAt
    then left else index
  if right < n ∧ (h.arr.getD right defaultItem).expiresAt < (h.arr.getD s1 defaultItem).expiresAt
    then right else s1

/-- `heapifyDown` (identical in `lru.go` and `lru_k.go`). Each Go
iteration moves `index` to a strictly larger child position `<
len(heap)`, so `len(heap)` iterations always suffice: callers pass
`fuel = h.arr.length`. -/
def heapifyDownF : Nat → HeapState → Nat → HeapState
  | 0, h, _ => h
  | fuel + 1, h, index =>
    let smallest := smallestIdx h index
    if smallest = index then h
    else
      let a := h.arr.getD index defaultItem
      let b := h.arr.getD smallest defaultItem
      let arr' := (h.arr.set index b).set smallest a
      let map' := hmInsert (hmInsert h.map b.key index) a.key smallest
      heapifyDownF fuel ⟨arr', map'⟩ smallest

def heapifyDown (h : HeapState) (index : Nat) : HeapState :=
  heapifyDownF h.arr.length h index

/-- `addToHeap` (both engines): append, record index, sift up. -/
def addToHeap (h : HeapState) (key : String) (expiresAt : Int) : HeapState :=
  let arr' := h.arr ++ [⟨key, expiresAt⟩]
  let index := arr'.length - 1
  heapifyUp ⟨arr', hmInsert h.map key index⟩ index

/-- `removeFromHeap` of `lru.go` (lines 188-211), pool variant.

After `c.heap[index] = c.heap[lastIndex]` the moved item's pointer
occupies BOTH slots, so `item := c.heap[lastIndex]` reads the moved
item; `c.heapItemPool.Put(item)` then zeroes it in place. When
`index < lastIndex` that pointer is still live at position `index`
of the shrunk slice, which the model captures by overwriting position
`index` with the zero item before the sift steps. (A later
`addToHeap` may additionally receive that same still-live pointer
back from the pool; no claim below evaluates the model past the
first corrupted state, so that second-order aliasing is not
modelled.) -/
def removeFromHeapPooled (h : HeapState) (key : String) : HeapState :=
  match h.map key with
  | none => h
  | some index =>
    if index ≥ h.arr.length then
      ⟨h.arr, hmErase h.map key⟩
    else
      let lastIndex := h.arr.length - 1
      let moved := h.arr.getD lastIndex defaultItem
      let arr1 := h.arr.set index moved
      let map1 := hmInsert h.map moved.key index
      let arr2 := arr1.take lastIndex
      let arr3 := if index < arr2.length then arr2.set index defaultItem else arr2
      let map2 := hmErase map1 key
      if index < arr3.length then
        heapifyUp (heapifyDown ⟨arr3, map2⟩ index) index
      else
        ⟨arr3, map2⟩

/-- `removeFromHeap` of `lru_k.go` (lines 268-284): no pool, the
removed item is simply dropped. -/
def removeFromHeapK (h : HeapState) (key : String) : HeapState :=
  match h.map key with
  | none => h
  | some index =>
    let lastIndex := h.arr.length - 1
    let moved := h.arr.getD lastIndex defaultItem
    let arr1 := h.arr.set index moved
    let map1 := hmInsert h.map moved.key index
    let arr2 := arr1.take lastIndex
    let map2 := hmErase map1 key
    if index < arr2.length then
      heapifyUp (heapifyDown ⟨arr2, map2⟩ index) index
    else
      ⟨arr2, map2⟩

def emptyHeap : HeapState := ⟨[], fun _ => none⟩

/-! ## LRU engine (`lru.go`) -/

/-- `entry` of `lru.go`: key, value, absolute expiration (0 = never). -/
structure Entry (V : Type) where
  key : String
  value : V
  expiresAt : Int
deriving DecidableEq, Repr

/-- `len(key) + value.Len()`, the byte contribution of one entry. -/
def entrySize {V : Type} [GoValue V] (e : Entry V) : Int :=
  (e.key.length : Int) + (GoValue.len e.value : Int)

/-- `Cache` of `lru.go`. `ll` is the recency list, front = MRU; the
`cache` index map is implicit (lookup = `find?` on the key). -/
structure LRU (V : Type) where
  maxBytes : Int
  nbytes : Int
  ll : List (Entry V)
  heap : HeapState

/-- `New(maxBytes, onEvicted)`: empty state (the callback is the
eviction log in this model). -/
def lruNew (V : Type) (maxBytes : Int) : LRU V :=
  ⟨maxBytes, 0, [], emptyHeap⟩

/-- `removeEntry` (`lru.go` lines 150-170) applied to the element
holding `e` (the first list element with `e`'s key): unlink, adjust
`nbytes`, drop the heap item when the entry could expire, fire
`OnEvicted`. -/
def lruRemoveEntryFirst {V : Type} [GoValue V] (st : LRU V) (e : Entry V) :
    LRU V × List (String × V) :=
  let st1 : LRU V :=
    { st with
      ll := st.ll.eraseP (fun x => x.key == e.key)
      nbytes := st.nbytes - entrySize e }
  let st2 : LRU V :=
    if 0 < e.expiresAt then { st1 with heap := removeFromHeapPooled st1.heap e.key } else st1
  (st2, [(e.key, e.value)])

/-- `RemoveOldest` (`lru.go` lines 141-146): `removeEntry` applied to
the back of the list. -/
def lruRemoveOldest {V : Type} [GoValue V] (st : LRU V) : LRU V × List (String × V) :=
  match st.ll.getLast? with
  | none => (st, [])
  | some e =>
    let st1 : LRU V :=
      { st with
        ll := st.ll.dropLast
        nbytes := st.nbytes - entrySize e }
    let st2 : LRU V :=
      if 0 < e.expiresAt then { st1 with heap := removeFromHeapPooled st1.heap e.key } else st1
    (st2, [(e.key, e.value)])

/-- The capacity loop `for c.maxBytes != 0 && c.maxBytes < c.nbytes {
c.RemoveOldest() }` at the end of `Add`. Each effective iteration
removes one list element, so `fuel = st.ll.length` reaches the loop's
exit state whenever the Go loop terminates. -/
def lruEvict {V : Type} [GoValue V] : Nat → LRU V → LRU V × List (String × V)
  | 0, st => (st, [])
  | fuel + 1, st =>
    if st.maxBytes ≠ 0 ∧ st.maxBytes < st.nbytes then
      let r1 := lruRemoveOldest st
      let r2 := lruEvict fuel r1.1
      (r2.1, r1.2 ++ r2.2)
    else (st, [])

/-- `Add(key, value, ttl)` (`lru.go` lines 71-119). -/
def lruAdd {V : Type} [GoValue V] (st : LRU V) (key : String) (v : V) (ttl now : Int) :
    LRU V × List (String × V) :=
  let expiresAt : Int := if 0 < ttl then now + ttl else 0
  match st.ll.find? (fun e => e.key == key) with
  | some e =>
    let st1 : LRU V :=
      { st with
        ll := Entry.mk e.key v expiresAt :: st.ll.eraseP (fun x => x.key == key)
        nbytes := st.nbytes + (GoValue.len v : Int) - (GoValue.len e.value : Int) }
    let st2 : LRU V :=
      if 0 < e.expiresAt ∨ 0 < expiresAt then
        let h1 := if 0 < e.expiresAt then removeFromHeapPooled st1.heap key else st1.heap
        let h2 := if 0 < expiresAt then addToHeap h1 key expiresAt else h1
        { st1 with heap := h2 }
      else st1
    lruEvict st2.ll.length st2
  | none =>
    let st1 : LRU V :=
      { st with
        ll := Entry.mk key v expiresAt :: st.ll
        nbytes := st.nbytes + (key.length : Int) + (GoValue.len v : Int) }
    let st2 : LRU V :=
      if 0 < expiresAt then { st1 with heap := addToHeap st1.heap key expiresAt } else st1
    lruEvict st2.ll.length st2

/-- `Get(key)` (`lru.go` lines 124-138): miss, lazy expiration, or
move-to-front hit. Returns (value?, state, OnEvicted log). -/
def lruGet {V : Type} [GoValue V] (st : LRU V) (key : String) (now : Int) :
    Option V × LRU V × List (String × V) :=
  match st.ll.find? (fun e => e.key == key) with
  | none => (none, st, [])
  | some e =>
    if 0 < e.expiresAt ∧ e.expiresAt < now then
      let r := lruRemoveEntryFirst st e
      (none, r.1, r.2)
    else
      (some e.value, { st with ll := e :: st.ll.eraseP (fun x => x.key == key) }, [])

/-! ## LRU-K engine (`lru_k.go`) -/

/-- `lruEntry` of `lru_k.go`: as `entry` plus `lastAccess`. -/
structure KEntry (V : Type) where
  key : String
  value : V
  expiresAt : Int
  lastAccess : Int
deriving DecidableEq, Repr

def kentrySize {V : Type} [GoValue V] (e : KEntry V) : Int :=
  (e.key.length : Int) + (GoValue.len e.value : Int)

/-- The `history` map `key → []int64` of access timestamps. -/
def HistMap : Type := String → Option (List Int)

def histStore (m : HistMap) (k : String) (ts : List Int) : HistMap :=
  fun k' => if k' = k then some ts else m k'

def histDelete (m : HistMap) (k : String) : HistMap :=
  fun k' => if k' = k then none else m k'

/-- `LRUCache` of `lru_k.go`. -/
structure LRUK (V : Type) where
  maxBytes : Int
  nbytes : Int
  ll : List (KEntry V)
  k : Nat
  history : HistMap
  heap : HeapState

/-- `NewLRUK(maxBytes, k, onEvicted)`: `k ≤ 0` defaults to 2. -/
def lrukNew (V : Type) (maxBytes : Int) (k : Int) : LRUK V :=
  ⟨maxBytes, 0, [], if k ≤ 0 then 2 else k.toNat, fun _ => none, emptyHeap⟩

/-- Truncation `if len(ts) > c.k { ts = ts[len(ts)-c.k:] }`. -/
def truncHistory (k : Nat) (ts : List Int) : List Int :=
  if k < ts.length then ts.drop (ts.length - k) else ts

/-- `removeEntry` (`lru_k.go` lines 230-253) applied to the element
holding `e`: unlink, adjust `nbytes`, drop the heap item when the
entry could expire, delete the key's access history, fire
`OnEvicted`. -/
def lrukRemoveEntryFirst {V : Type} [GoValue V] (st : LRUK V) (e : KEntry V) :
    LRUK V × List (String × V) :=
  let st1 : LRUK V :=
    { st with
      ll := st.ll.eraseP (fun x => x.key == e.key)
      nbytes := st.nbytes - kentrySize e }
  let st2 : LRUK V :=
    if 0 < e.expiresAt then { st1 with heap := removeFromHeapK st1.heap e.key } else st1
  let st3 : LRUK V := { st2 with history := histDelete st2.history e.key }
  (st3, [(e.key, e.value)])

/-- `RemoveOldest` (`lru_k.go` lines 218-226). -/
def lrukRemoveOldest {V : Type} [GoValue V] (st : LRUK V) : LRUK V × List (String × V) :=
  match st.ll.getLast? with
  | none => (st, [])
  | some e =>
    let st1 : LRUK V :=
      { st with
        ll := st.ll.dropLast
        nbytes := st.nbytes - kentrySize e }
    let st2 : LRUK V :=
      if 0 < e.expiresAt then { st1 with heap := removeFromHeapK st1.heap e.key } else st1
    let st3 : LRUK V := { st2 with history := histDelete st2.history e.key }
    (st3, [(e.key, e.value)])

/-- The capacity loop of `lru_k.go` `Add` (lines 165-167); fuel as in
`lruEvict`. -/
def lrukEvict {V : Type} [GoValue V] : Nat → LRUK V → LRUK V × List (String × V)
  | 0, st => (st, [])
  | fuel + 1, st =>
    if st.maxBytes ≠ 0 ∧ st.maxBytes < st.nbytes then
      let r1 := lrukRemoveOldest st
      let r2 := lrukEvict fuel r1.1
      (r2.1, r1.2 ++ r2.2)
    else (st, [])

/-- `Add(key, value, ttl)` (`lru_k.go` lines 81-171). For a key not in
the cache the access history is appended and truncated, and the entry
is admitted when `shouldCache := !exists || len(ts) >= c.k`. -/
def lrukAdd {V : Type} [GoValue V] (st : LRUK V) (key : String) (v : V) (ttl now : Int) :
    LRUK V × List (String × V) :=
  let expiresAt : Int := if 0 < ttl then now + ttl else 0
  match st.ll.find? (fun e => e.key == key) with
  | some e =>
    let st1 : LRUK V :=
      { st with
        ll := KEntry.mk e.key v expiresAt now :: st.ll.eraseP (fun x => x.key == key)
        nbytes := st.nbytes + (GoValue.len v : Int) - (GoValue.len e.value : Int) }
    if 0 < e.expiresAt ∨ 0 < expiresAt then
      let h1 := if 0 < e.expiresAt then removeFromHeapK st1.heap key else st1.heap
      let h2 := if 0 < expiresAt then addToHeap h1 key expiresAt else h1
      ({ st1 with heap := h2 }, [])
    else (st1, [])
  | none =>
    let ts0 := st.history key
    let ts := truncHistory st.k ((ts0.getD []) ++ [now])
    let st1 : LRUK V := { st with history := histStore st.history key ts }
    let shouldCache := ts0.isNone ∨ st.k ≤ ts.length
    if shouldCache then
      let st2 : LRUK V :=
        { st1 with
          ll := KEntry.mk key v expiresAt now :: st1.ll
          nbytes := st1.nbytes + (key.length : Int) + (GoValue.len v : Int) }
      let st3 : LRUK V :=
        if 0 < expiresAt then { st2 with heap := addToHeap st2.heap key expiresAt } else st2
      lrukEvict st3.ll.length st3
    else (st1, [])

/-- `Get(key)` (`lru_k.go` lines 176-215): expired hits are removed
(history included); a miss appends `now` to the history and truncates
to the latest `k` stamps. -/
def lrukGet {V : Type} [GoValue V] (st : LRUK V) (key : String) (now : Int) :
    Option V × LRUK V × List (String × V) :=
  match st.ll.find? (fun e => e.key == key) with
  | some e =>
    if 0 < e.expiresAt ∧ e.expiresAt < now then
      let r := lrukRemoveEntryFirst st e
      (none, r.1, r.2)
    else
      (some e.value,
        { st with ll := KEntry.mk e.key e.value e.expiresAt now :: st.ll.eraseP (fun x => x.key == key) },
        [])
  | none =>
    let ts := truncHistory st.k (((st.history key).getD []) ++ [now])
    (none, { st with history := histStore st.history key ts }, [])

/-! ## Cache facade (mygocache `cache` type) -/

inductive CacheStrategy where
  | lru
  | lruK
deriving DecidableEq, Repr

/-- The `cache` struct of the mygocache facade: strategy selector plus
the engine for the selected strategy (`NewCache` initialises it
immediately; `add` lazily re-creates it when absent). -/
structure FacadeCache where
  lru : Option (LRU ByteView)
  lruK : Option (LRUK ByteView)
  cacheBytes : Int
  strategy : CacheStrategy
  k : Int

/-- `NewCache(cacheBytes, strategy, k)`. -/
def cacheNew (cacheBytes : Int) (strategy : CacheStrategy) (k : Int) : FacadeCache :=
  match strategy with
  | .lruK => ⟨none, some (lrukNew ByteView cacheBytes k), cacheBytes, strategy, k⟩
  | .lru => ⟨some (lruNew ByteView cacheBytes), none, cacheBytes, strategy, k⟩

/-- facade `add`: dispatch to the selected engine (creating it when
nil, as the source does). -/
def cacheAdd (c : FacadeCache) (key : String) (v : ByteView) (ttl now : Int) : FacadeCache :=
  match c.strategy with
  | .lruK =>
    let eng := c.lruK.getD (lrukNew ByteView c.cacheBytes c.k)
    { c with lruK := some (lrukAdd eng key v ttl now).1 }
  | .lru =>
    let eng := c.lru.getD (lruNew ByteView c.cacheBytes)
    { c with lru := some (lruAdd eng key v ttl now).1 }

/-- facade `get`: nil engine is a miss; otherwise the engine's `Get`. -/
def cacheGet (c : FacadeCache) (key : String) (now : Int) : Option ByteView × FacadeCache :=
  match c.strategy with
  | .lruK =>
    match c.lruK with
    | none => (none, c)
    | some eng =>
      let r := lrukGet eng key now
      (r.1, { c with lruK := some r.2.1 })
  | .lru =>
    match c.lru with
    | none => (none, c)
    | some eng =>
      let r := lruGet eng key now
      (r.1, { c with lru := some r.2.1 })

/-! ## Group coordinator (`mygocache.go`) -/

/-- `PeerPicker` + `PeerGetter`, collapsed to their observable effect:
`PickPeer(key)` optionally yields a getter for the key. -/
def PeerPick : Type := String → Option (String → Except String (List Nat))

/-- `Group`: name, loader, facade, optional picker, default TTL. The
single-flight `loader` field and the goroutine pool have no observable
effect for a single sequential caller (`Do` invokes `fn` directly;
`Submit` hands the task to a worker whose result is awaited), so they
are inlined below. -/
structure Group where
  name : String
  getter : String → Except String (List Nat)
  mainCache : FacadeCache
  peers : Option PeerPick
  defaultTTL : Int

/-- `NewGroupWithOptions(name, cacheBytes, getter, defaultTTL,
strategy, k)` (registry insertion aside). -/
def groupNew (name : String) (cacheBytes : Int) (getter : String → Except String (List Nat))
    (defaultTTL : Int) (strategy : CacheStrategy) (k : Int) : Group :=
  ⟨name, getter, cacheNew cacheBytes strategy k, none, defaultTTL⟩

/-- `getLocallyWithTTL`: call the loader; on success defensively copy
and write through with `ttl`. -/
def groupGetLocally (g : Group) (key : String) (ttl now : Int) : Except String ByteView × Group :=
  match g.getter key with
  | .error e => (.error e, g)
  | .ok bytes =>
    let value : ByteView := ⟨cloneBytes bytes⟩
    (.ok value, { g with mainCache := cacheAdd g.mainCache key value ttl now })

/-- `loadWithTTL` (`mygocache.go` lines 161-206). The single-flight
`Do` around `fn` is modelled for one sequential caller: `fn` runs
once (the coordinator itself is not under `src/`; see `SF` below).
Peer path: on peer success write through and return; on peer error
fall through to the local loader. -/
def groupLoadWithTTL (g : Group) (key : String) (ttl now : Int) : Except String ByteView × Group :=
  match g.peers with
  | some pick =>
    match pick key with
    | some peerGet =>
      match peerGet key with
      | .ok bytes =>
        let value : ByteView := ⟨bytes⟩
        (.ok value, { g with mainCache := cacheAdd g.mainCache key value ttl now })
      | .error _ => groupGetLocally g key ttl now
    | none => groupGetLocally g key ttl now
  | none => groupGetLocally g key ttl now

/-- `GetWithTTL(key, ttl)` (`mygocache.go` lines 88-99): empty key is
an error before any cache access; then hit fast path, else load. -/
def groupGetWithTTL (g : Group) (key : String) (ttl now : Int) : Except String ByteView × Group :=
  if key = "" then (.error "key is required", g)
  else
    match cacheGet g.mainCache key now with
    | (some v, c') => (.ok v, { g with mainCache := c' })
    | (none, c') => groupLoadWithTTL { g with mainCache := c' } key ttl now

/-- `Get(key)` = `GetWithTTL(key, defaultTTL)`. -/
def groupGet (g : Group) (key : String) (now : Int) : Except String ByteView × Group :=
  groupGetWithTTL g key g.defaultTTL now

/-- `Set(key, value, ttl)`: defensively copy into a `ByteView`,
facade `add`, always succeeds. -/
def groupSet (g : Group) (key : String) (value : List Nat) (ttl now : Int) : Group :=
  { g with mainCache := cacheAdd g.mainCache key ⟨cloneBytes value⟩ ttl now }

/-! ## Goroutine pool (`object_pool.go` lines 116-199) -/

/-- `GoroutinePool`, reduced to its submission-relevant state: the
closed flag and the buffered task channel (queued task ids) with its
capacity. -/
structure GoroutinePool where
  closed : Bool
  tasks : List Nat
  queueCap : Nat

/-- What `Submit` does with the task. -/
inductive SubmitOutcome where
  | enqueued
  | ranOnNewGoroutine
  | dropped
deriving DecidableEq, Repr

/-- `NewGoroutinePool(size, queueSize)`: non-positive arguments
default to 1 and 1000. (The `size` worker goroutines drain `tasks`;
only the queue is observable here.) -/
def poolNew (size queueSize : Int) : GoroutinePool :=
  ⟨false, [], if queueSize ≤ 0 then 1000 else queueSize.toNat⟩

/-- `Submit(task)` (`object_pool.go` lines 160-177): if the pool is
closed, return nil without touching the task; otherwise a
non-blocking channel send — enqueue when the buffer has room, else
`go task()`. -/
def poolSubmit (p : GoroutinePool) (task : Nat) : GoroutinePool × SubmitOutcome :=
  if p.closed then (p, .dropped)
  else if p.tasks.length < p.queueCap then
    ({ p with tasks := p.tasks ++ [task] }, .enqueued)
  else (p, .ranOnNewGoroutine)

/-- `Close` (`object_pool.go` lines 180-193): idempotent; marks the
pool closed (workers then drain the remaining queue and exit). -/
def poolClose (p : GoroutinePool) : GoroutinePool :=
  { p with closed := true }

/-! ## Single-flight coordinator

Modelled from the spec: the `singleflight.Group` implementation is not
under `src/` (only its unit test and its callers are), so `Do` is
modelled from the spec's words: "while a call for `key` is in flight,
subsequent callers join it and receive the same `(value, err)`; only
one invocation of `fn` occurs per completed flight. After completion
the entry is removed; a fresh `Do` re-invokes `fn`."

Caller arrivals and flight completions are events; the state tracks,
per key, the number of callers waiting on the in-flight call, plus
counters of `fn` invocations and completed flights. -/

/-- Modelled from the spec: per-key bookkeeping state of the missing
`singleflight.Group` (waiter count of the in-flight call, `fn`
invocation count, completed-flight count). -/
structure SF where
  inflight : String → Option Nat
  invocations : String → Nat
  completed : String → Nat

def sfInit : SF := ⟨fun _ => none, fun _ => 0, fun _ => 0⟩

/-- Events: a caller invokes `Do(key, fn)`, or the in-flight call for
`key` completes with result `r` (delivered to every waiter). -/
inductive SFEvent where
  | arrive (key : String)
  | complete (key : String) (r : Nat)

/-- Modelled from the spec: one `Do`/completion step of the missing
`singleflight.Group`. The first arriving caller for a key invokes
`fn` (invocation counter bumps); joiners only increment the waiter
count. Completion removes the entry and counts a completed flight. -/
def sfStep (s : SF) : SFEvent → SF
  | .arrive key =>
    match s.inflight key with
    | some n => { s with inflight := fun k => if k = key then some (n + 1) else s.inflight k }
    | none =>
      { s with
        inflight := fun k => if k = key then some 1 else s.inflight k
        invocations := fun k => if k = key then s.invocations k + 1 else s.invocations k }
  | .complete key _ =>
    match s.inflight key with
    | some _ =>
      { s with
        inflight := fun k => if k = key then none else s.inflight k
        completed := fun k => if k = key then s.completed k + 1 else s.completed k }
    | none => s

/-- The `(value, err)` results handed to callers by an event: a
completion delivers the flight's single result to every waiter. -/
def sfOutputs (s : SF) : SFEvent → List Nat
  | .arrive _ => []
  | .complete key r =>
    match s.inflight key with
    | some n => List.replicate n r
    | none => []

def sfRun (events : List SFEvent) : SF :=
  events.foldl sfStep sfInit

/-! ## Derived notions used by the statements -/

/-- Spec §3 byte accounting: `Σ (len(key) + value.Len())` over the
live entries of an LRU engine. -/
def lruSum {V : Type} [GoValue V] (l : List (Entry V)) : Int :=
  (l.map entrySize).sum

def lrukSum {V : Type} [GoValue V] (l : List (KEntry V)) : Int :=
  (l.map kentrySize).sum

/-- `nbytes` agrees with the byte total of the live entries (spec §8
invariant 1); this is the inductive well-formedness the accounting
proofs carry. -/
abbrev lruWF {V : Type} [GoValue V] (st : LRU V) : Prop :=
  st.nbytes = lruSum st.ll

abbrev lrukWF {V : Type} [GoValue V] (st : LRUK V) : Prop :=
  st.nbytes = lrukSum st.ll

/-- The mutating operations of an engine, as invoked by the facade:
`Add`, `Get`, `RemoveOldest` (each with its Go-time argument). -/
inductive EngOp (V : Type) where
  | add (key : String) (v : V) (ttl now : Int)
  | get (key : String) (now : Int)
  | removeOldest

def lruStep {V : Type} [GoValue V] (st : LRU V) : EngOp V → LRU V
  | .add key v ttl now => (lruAdd st key v ttl now).1
  | .get key now => (lruGet st key now).2.1
  | .removeOldest => (lruRemoveOldest st).1

def lruRunOps {V : Type} [GoValue V] (st : LRU V) (ops : List (EngOp V)) : LRU V :=
  ops.foldl lruStep st

def lrukStep {V : Type} [GoValue V] (st : LRUK V) : EngOp V → LRUK V
  | .add key v ttl now => (lrukAdd st key v ttl now).1
  | .get key now => (lrukGet st key now).2.1
  | .removeOldest => (lrukRemoveOldest st).1

def lrukRunOps {V : Type} [GoValue V] (st : LRUK V) (ops : List (EngOp V)) : LRUK V :=
  ops.foldl lrukStep st

/-- No item at any position of the heap array carries key `k`. -/
def keyAbsent (k : String) (arr : List HeapItem) : Prop :=
  ∀ j, j < arr.length → (arr.getD j defaultItem).key ≠ k

/-! ## Byte-accounting lemmas -/

theorem entrySize_nonneg {V : Type} [GoValue V] (e : Entry V) : 0 ≤ entrySize e :=
  add_nonneg (Int.natCast_nonneg _) (Int.natCast_nonneg _)

theorem kentrySize_nonneg {V : Type} [GoValue V] (e : KEntry V) : 0 ≤ kentrySize e :=
  add_nonneg (Int.natCast_nonneg _) (Int.natCast_nonneg _)

theorem sumMap_nonneg {α : Type _} (f : α → Int) (hf : ∀ x, 0 ≤ f x) :
    ∀ l : List α, 0 ≤ (l.map f).sum
  | [] => le_refl 0
  | a :: t => by
    simp only [List.map_cons, List.sum_cons]
    exact add_nonneg (hf a) (sumMap_nonneg f hf t)

theorem sumMap_eraseP {α : Type _} (f : α → Int) (p : α → Bool) :
    ∀ (l : List α) (e : α), l.find? p = some e →
      ((l.eraseP p).map f).sum = (l.map f).sum - f e
  | [], e, h => by simp at h
  | a :: t, e, h => by
    by_cases hp : p a
    · rw [List.find?_cons_of_pos _ hp] at h
      injection h with h
      subst h
      rw [List.eraseP_cons_of_pos hp]
      simp only [List.map_cons, List.sum_cons]
      ring
    · rw [List.find?_cons_of_neg _ hp] at h
      rw [List.eraseP_cons_of_neg (by simpa using hp)]
      simp only [List.map_cons, List.sum_cons, sumMap_eraseP f p t e h]
      ring

theorem sumMap_dropLast {α : Type _} (f : α → Int) :
    ∀ (l : List α) (e : α), l.getLast? = some e →
      (l.dropLast.map f).sum = (l.map f).sum - f e
  | [], e, h => by simp at h
  | [a], e, h => by
    simp only [List.getLast?_singleton, Option.some_inj] at h
    subst h
    simp
  | a :: b :: t, e, h => by
    rw [List.getLast?_cons_cons] at h
    have ht := sumMap_dropLast f (b :: t) e h
    simp only [List.dropLast_cons₂, List.map_cons, List.sum_cons] at ht ⊢
    rw [ht]
    ring

theorem dropLast_cons_of_ne_nil {α : Type _} (a : α) {t : List α} (h : t ≠ []) :
    (a :: t).dropLast = a :: t.dropLast := by
  cases t with
  | nil => exact absurd rfl h
  | cons b u => simp

/-! ## LRU eviction-loop lemmas -/

theorem lruRemoveOldest_proj {V : Type} [GoValue V] (st : LRU V) (e : Entry V)
    (h : st.ll.getLast? = some e) :
    (lruRemoveOldest st).1.ll = st.ll.dropLast ∧
      (lruRemoveOldest st).1.nbytes = st.nbytes - entrySize e ∧
      (lruRemoveOldest st).1.maxBytes = st.maxBytes := by
  simp only [lruRemoveOldest, h]
  split <;> exact ⟨rfl, rfl, rfl⟩

theorem lruEvict_succ_pos {V : Type} [GoValue V] (fuel : Nat) (st : LRU V)
    (hc : st.maxBytes ≠ 0 ∧ st.maxBytes < st.nbytes) :
    (lruEvict (fuel + 1) st).1 = (lruEvict fuel (lruRemoveOldest st).1).1 := by
  simp [lruEvict, hc]

theorem lruEvict_succ_neg {V : Type} [GoValue V] (fuel : Nat) (st : LRU V)
    (hc : ¬(st.maxBytes ≠ 0 ∧ st.maxBytes < st.nbytes)) :
    lruEvict (fuel + 1) st = (st, []) := by
  simp only [lruEvict, if_neg hc]

theorem lru_ne_nil_of_sum_pos {V : Type} [GoValue V] (st : LRU V) (hwf : lruWF st)
    (hpos : 0 < st.nbytes) : st.ll ≠ [] := by
  intro hnil
  have : st.nbytes = 0 := by rw [hwf, hnil]; simp [lruSum]
  omega

theorem lruEvict_bound {V : Type} [GoValue V] :
    ∀ (fuel : Nat) (st : LRU V), lruWF st → 0 < st.maxBytes → st.ll.length ≤ fuel →
      lruWF (lruEvict fuel st).1 ∧ (lruEvict fuel st).1.maxBytes = st.maxBytes ∧
        (lruEvict fuel st).1.nbytes ≤ st.maxBytes
  | 0, st, hwf, hmb, hlen => by
    have hnil : st.ll = [] := List.length_eq_zero.mp (Nat.le_zero.mp hlen)
    refine ⟨hwf, rfl, ?_⟩
    show st.nbytes ≤ st.maxBytes
    rw [hwf, hnil]
    simpa [lruSum] using le_of_lt hmb
  | fuel + 1, st, hwf, hmb, hlen => by
    by_cases hc : st.maxBytes ≠ 0 ∧ st.maxBytes < st.nbytes
    · have hne : st.ll ≠ [] := lru_ne_nil_of_sum_pos st hwf (lt_trans hmb hc.2)
      obtain ⟨e, he⟩ := Option.isSome_iff_exists.mp (List.getLast?_isSome.mpr hne)
      obtain ⟨hll, hnb, hmx⟩ := lruRemoveOldest_proj st e he
      have hwf1 : lruWF (lruRemoveOldest st).1 := by
        rw [lruWF, hnb, hll, lruSum, sumMap_dropLast entrySize st.ll e he, hwf]
        rfl
      have hlen1 : (lruRemoveOldest st).1.ll.length ≤ fuel := by
        rw [hll, List.length_dropLast]
        have : 0 < st.ll.length := List.length_pos.mpr hne
        omega
      have ih := lruEvict_bound fuel (lruRemoveOldest st).1 hwf1 (hmx ▸ hmb) hlen1
      rw [lruEvict_succ_pos fuel st hc]
      exact ⟨ih.1, by rw [ih.2.1, hmx], by rw [← hmx]; exact ih.2.2⟩
    · have hle : st.nbytes ≤ st.maxBytes := by
        rcases not_and_or.mp hc with h | h
        · exact absurd (ne_of_gt hmb) (by simpa using h)
        · exact le_of_not_lt h
      rw [lruEvict_succ_neg fuel st hc]
      exact ⟨hwf, rfl, hle⟩

theorem lruEvict_head {V : Type} [GoValue V] :
    ∀ (fuel : Nat) (st : LRU V) (e : Entry V), lruWF st → st.ll.head? = some e →
      (st.maxBytes = 0 ∨ entrySize e ≤ st.maxBytes) →
      (lruEvict fuel st).1.ll.head? = some e ∧ lruWF (lruEvict fuel st).1 ∧
        (lruEvict fuel st).1.maxBytes = st.maxBytes
  | 0, st, e, hwf, hhd, _ => ⟨hhd, hwf, rfl⟩
  | fuel + 1, st, e, hwf, hhd, hfit => by
    by_cases hc : st.maxBytes ≠ 0 ∧ st.maxBytes < st.nbytes
    · have hfit' : entrySize e ≤ st.maxBytes := by
        rcases hfit with h | h
        · exact absurd h hc.1
        · exact h
      obtain ⟨t, hll⟩ : ∃ t, st.ll = e :: t := by
        cases hl : st.ll with
        | nil => rw [hl] at hhd; simp at hhd
        | cons a u =>
          rw [hl] at hhd
          simp only [List.head?_cons, Option.some_inj] at hhd
          exact ⟨u, by rw [hhd]⟩
      have ht : t ≠ [] := by
        intro hnil
        have : st.nbytes = entrySize e := by
          rw [hwf, hll, hnil]
          simp [lruSum]
        omega
      have hne2 : st.ll ≠ [] := by rw [hll]; exact List.cons_ne_nil e t
      obtain ⟨last, hlast⟩ := Option.isSome_iff_exists.mp (List.getLast?_isSome.mpr hne2)
      obtain ⟨hll1, hnb1, hmx1⟩ := lruRemoveOldest_proj st last hlast
      have hhd1 : (lruRemoveOldest st).1.ll.head? = some e := by
        rw [hll1, hll, dropLast_cons_of_ne_nil e ht]
        rfl
      have hwf1 : lruWF (lruRemoveOldest st).1 := by
        rw [lruWF, hnb1, hll1, lruSum, sumMap_dropLast entrySize st.ll last hlast, hwf]
        rfl
      have ih := lruEvict_head fuel (lruRemoveOldest st).1 e hwf1 hhd1
        (Or.inr (hmx1 ▸ hfit'))
      rw [lruEvict_succ_pos fuel st hc]
      exact ⟨ih.1, ih.2.1, by rw [ih.2.2, hmx1]⟩
    · rw [lruEvict_succ_neg fuel st hc]
      exact ⟨hhd, hwf, rfl⟩

/-! ## LRU-K eviction-loop lemmas (mirroring the LRU ones) -/

theorem lrukRemoveOldest_proj {V : Type} [GoValue V] (st : LRUK V) (e : KEntry V)
    (h : st.ll.getLast? = some e) :
    (lrukRemoveOldest st).1.ll = st.ll.dropLast ∧
      (lrukRemoveOldest st).1.nbytes = st.nbytes - kentrySize e ∧
      (lrukRemoveOldest st).1.maxBytes = st.maxBytes := by
  simp only [lrukRemoveOldest, h]
  split <;> exact ⟨rfl, rfl, rfl⟩

theorem lrukEvict_succ_pos {V : Type} [GoValue V] (fuel : Nat) (st : LRUK V)
    (hc : st.maxBytes ≠ 0 ∧ st.maxBytes < st.nbytes) :
    (lrukEvict (fuel + 1) st).1 = (lrukEvict fuel (lrukRemoveOldest st).1).1 := by
  simp [lrukEvict, hc]

theorem lrukEvict_succ_neg {V : Type} [GoValue V] (fuel : Nat) (st : LRUK V)
    (hc : ¬(st.maxBytes ≠ 0 ∧ st.maxBytes < st.nbytes)) :
    lrukEvict (fuel + 1) st = (st, []) := by
  simp only [lrukEvict, if_neg hc]

theorem lruk_ne_nil_of_sum_pos {V : Type} [GoValue V] (st : LRUK V) (hwf : lrukWF st)
    (hpos : 0 < st.nbytes) : st.ll ≠ [] := by
  intro hnil
  have : st.nbytes = 0 := by rw [hwf, hnil]; simp [lrukSum]
  omega

theorem lrukEvict_bound {V : Type} [GoValue V] :
    ∀ (fuel : Nat) (st : LRUK V), lrukWF st → 0 < st.maxBytes → st.ll.length ≤ fuel →
      lrukWF (lrukEvict fuel st).1 ∧ (lrukEvict fuel st).1.maxBytes = st.maxBytes ∧
        (lrukEvict fuel st).1.nbytes ≤ st.maxBytes
  | 0, st, hwf, hmb, hlen => by
    have hnil : st.ll = [] := List.length_eq_zero.mp (Nat.le_zero.mp hlen)
    refine ⟨hwf, rfl, ?_⟩
    show st.nbytes ≤ st.maxBytes
    rw [hwf, hnil]
    simpa [lrukSum] using le_of_lt hmb
  | fuel + 1, st, hwf, hmb, hlen => by
    by_cases hc : st.maxBytes ≠ 0 ∧ st.maxBytes < st.nbytes
    · have hne : st.ll ≠ [] := lruk_ne_nil_of_sum_pos st hwf (lt_trans hmb hc.2)
      obtain ⟨e, he⟩ := Option.isSome_iff_exists.mp (List.getLast?_isSome.mpr hne)
      obtain ⟨hll, hnb, hmx⟩ := lrukRemoveOldest_proj st e he
      have hwf1 : lrukWF (lrukRemoveOldest st).1 := by
        rw [lrukWF, hnb, hll, lrukSum, sumMap_dropLast kentrySize st.ll e he, hwf]
        rfl
      have hlen1 : (lrukRemoveOldest st).1.ll.length ≤ fuel := by
        rw [hll, List.length_dropLast]
        have : 0 < st.ll.length := List.length_pos.mpr hne
        omega
      have ih := lrukEvict_bound fuel (lrukRemoveOldest st).1 hwf1 (hmx ▸ hmb) hlen1
      rw [lrukEvict_succ_pos fuel st hc]
      exact ⟨ih.1, by rw [ih.2.1, hmx], by rw [← hmx]; exact ih.2.2⟩
    · have hle : st.nbytes ≤ st.maxBytes := by
        rcases not_and_or.mp hc with h | h
        · exact absurd (ne_of_gt hmb) (by simpa using h)
        · exact le_of_not_lt h
      rw [lrukEvict_succ_neg fuel st hc]
      exact ⟨hwf, rfl, hle⟩

theorem lrukEvict_head {V : Type} [GoValue V] :
    ∀ (fuel : Nat) (st : LRUK V) (e : KEntry V), lrukWF st → st.ll.head? = some e →
      (st.maxBytes = 0 ∨ kentrySize e ≤ st.maxBytes) →
      (lrukEvict fuel st).1.ll.head? = some e ∧ lrukWF (lrukEvict fuel st).1 ∧
        (lrukEvict fuel st).1.maxBytes = st.maxBytes
  | 0, st, e, hwf, hhd, _ => ⟨hhd, hwf, rfl⟩
  | fuel + 1, st, e, hwf, hhd, hfit => by
    by_cases hc : st.maxBytes ≠ 0 ∧ st.maxBytes < st.nbytes
    · have hfit' : kentrySize e ≤ st.maxBytes := by
        rcases hfit with h | h
        · exact absurd h hc.1
        · exact h
      obtain ⟨t, hll⟩ : ∃ t, st.ll = e :: t := by
        cases hl : st.ll with
        | nil => rw [hl] at hhd; simp at hhd
        | cons a u =>
          rw [hl] at hhd
          simp only [List.head?_cons, Option.some_inj] at hhd
          exact ⟨u, by rw [hhd]⟩
      have ht : t ≠ [] := by
        intro hnil
        have : st.nbytes = kentrySize e := by
          rw [hwf, hll, hnil]
          simp [lrukSum]
        omega
      have hne2 : st.ll ≠ [] := by rw [hll]; exact List.cons_ne_nil e t
      obtain ⟨last, hlast⟩ := Option.isSome_iff_exists.mp (List.getLast?_isSome.mpr hne2)
      obtain ⟨hll1, hnb1, hmx1⟩ := lrukRemoveOldest_proj st last hlast
      have hhd1 : (lrukRemoveOldest st).1.ll.head? = some e := by
        rw [hll1, hll, dropLast_cons_of_ne_nil e ht]
        rfl
      have hwf1 : lrukWF (lrukRemoveOldest st).1 := by
        rw [lrukWF, hnb1, hll1, lrukSum, sumMap_dropLast kentrySize st.ll last hlast, hwf]
        rfl
      have ih := lrukEvict_head fuel (lrukRemoveOldest st).1 e hwf1 hhd1
        (Or.inr (hmx1 ▸ hfit'))
      rw [lrukEvict_succ_pos fuel st hc]
      exact ⟨ih.1, ih.2.1, by rw [ih.2.2, hmx1]⟩
    · rw [lrukEvict_succ_neg fuel st hc]
      exact ⟨hhd, hwf, rfl⟩

theorem lruAdd_case_none {V : Type} [GoValue V] (st : LRU V) (key : String) (v : V) (ttl now : Int)
    (hfind : st.ll.find? (fun e => e.key == key) = none) :
    ∃ hp : HeapState, (lruAdd st key v ttl now).1 =
      (lruEvict (st.ll.length + 1)
        { st with
          ll := Entry.mk key v (if 0 < ttl then now + ttl else 0) :: st.ll
          nbytes := st.nbytes + (key.length : Int) + (GoValue.len v : Int)
          heap := hp }).1 := by
  simp only [lruAdd, hfind]
  by_cases hb : 0 < (if 0 < ttl then now + ttl else 0 : Int)
  · simp only [if_pos hb]
    exact ⟨_, rfl⟩
  · simp only [if_neg hb]
    exact ⟨_, rfl⟩

theorem lruAdd_case_some {V : Type} [GoValue V] (st : LRU V) (key : String) (v : V) (ttl now : Int)
    (e : Entry V) (hfind : st.ll.find? (fun x => x.key == key) = some e) :
    ∃ hp : HeapState, (lruAdd st key v ttl now).1 =
      (lruEvict ((st.ll.eraseP (fun x => x.key == key)).length + 1)
        { st with
          ll := Entry.mk e.key v (if 0 < ttl then now + ttl else 0) :: st.ll.eraseP (fun x => x.key == key)
          nbytes := st.nbytes + (GoValue.len v : Int) - (GoValue.len e.value : Int)
          heap := hp }).1 := by
  simp only [lruAdd, hfind]
  by_cases hc : 0 < e.expiresAt ∨ 0 < (if 0 < ttl then now + ttl else 0 : Int)
  · simp only [if_pos hc]
    exact ⟨_, rfl⟩
  · simp only [if_neg hc]
    exact ⟨_, rfl⟩

theorem lruAdd_head {V : Type} [GoValue V] (st : LRU V) (key : String) (v : V) (ttl now : Int)
    (hwf : lruWF st)
    (hfit : st.maxBytes = 0 ∨ (key.length : Int) + (GoValue.len v : Int) ≤ st.maxBytes) :
    (lruAdd st key v ttl now).1.ll.head? =
        some (Entry.mk key v (if 0 < ttl then now + ttl else 0)) ∧
      lruWF (lruAdd st key v ttl now).1 ∧
      (lruAdd st key v ttl now).1.maxBytes = st.maxBytes := by
  cases hfind : st.ll.find? (fun x => x.key == key) with
  | none =>
    obtain ⟨hp, heq⟩ := lruAdd_case_none st key v ttl now hfind
    rw [heq]
    have hwfN : lruWF
        { st with
          ll := Entry.mk key v (if 0 < ttl then now + ttl else 0) :: st.ll
          nbytes := st.nbytes + (key.length : Int) + (GoValue.len v : Int)
          heap := hp } := by
      show st.nbytes + (key.length : Int) + (GoValue.len v : Int) = _
      simp only [lruSum, List.map_cons, List.sum_cons, entrySize]
      rw [hwf]
      simp only [lruSum]
      ring
    have h := lruEvict_head (st.ll.length + 1) _ (Entry.mk key v (if 0 < ttl then now + ttl else 0)) hwfN rfl
      (by
        rcases hfit with h | h
        · exact Or.inl h
        · exact Or.inr (by simpa [entrySize] using h))
    exact ⟨h.1, h.2.1, h.2.2⟩
  | some e =>
    have hek : e.key = key := by
      have := List.find?_some hfind
      simpa using this
    obtain ⟨hp, heq⟩ := lruAdd_case_some st key v ttl now e hfind
    rw [hek] at heq
    rw [heq]
    have hesz : entrySize e = (key.length : Int) + (GoValue.len e.value : Int) := by
      simp [entrySize, hek]
    have hwfS : lruWF
        { st with
          ll := Entry.mk key v (if 0 < ttl then now + ttl else 0) :: st.ll.eraseP (fun x => x.key == key)
          nbytes := st.nbytes + (GoValue.len v : Int) - (GoValue.len e.value : Int)
          heap := hp } := by
      show st.nbytes + (GoValue.len v : Int) - (GoValue.len e.value : Int) = _
      simp only [lruSum, List.map_cons, List.sum_cons, entrySize]
      rw [show ((st.ll.eraseP (fun x => x.key == key)).map entrySize).sum
          = (st.ll.map entrySize).sum - entrySize e from
        sumMap_eraseP entrySize _ st.ll e hfind]
      rw [hwf]
      simp only [lruSum]
      rw [hesz]
      ring
    have h := lruEvict_head ((st.ll.eraseP (fun x => x.key == key)).length + 1) _
      (Entry.mk key v (if 0 < ttl then now + ttl else 0)) hwfS rfl
      (by
        rcases hfit with h | h
        · exact Or.inl h
        · exact Or.inr (by simpa [entrySize, hek] using h))
    exact ⟨h.1, h.2.1, h.2.2⟩

theorem lruGet_eq_miss {V : Type} [GoValue V] (st : LRU V) (key : String) (now : Int)
    (hfind : st.ll.find? (fun x => x.key == key) = none) :
    lruGet st key now = (none, st, []) := by
  simp [lruGet, hfind]

theorem lruGet_eq_expired {V : Type} [GoValue V] (st : LRU V) (key : String) (now : Int)
    (e : Entry V) (hfind : st.ll.find? (fun x => x.key == key) = some e)
    (hex : 0 < e.expiresAt ∧ e.expiresAt < now) :
    lruGet st key now = (none, (lruRemoveEntryFirst st e).1, (lruRemoveEntryFirst st e).2) := by
  simp [lruGet, hfind, hex]

theorem lruGet_eq_hit {V : Type} [GoValue V] (st : LRU V) (key : String) (now : Int)
    (e : Entry V) (hfind : st.ll.find? (fun x => x.key == key) = some e)
    (hnex : ¬(0 < e.expiresAt ∧ e.expiresAt < now)) :
    lruGet st key now =
      (some e.value, { st with ll := e :: st.ll.eraseP (fun x => x.key == key) }, []) := by
  simp [lruGet, hfind, hnex]

theorem lruRemoveEntryFirst_proj {V : Type} [GoValue V] (st : LRU V) (e : Entry V) :
    (lruRemoveEntryFirst st e).1.ll = st.ll.eraseP (fun x => x.key == e.key) ∧
      (lruRemoveEntryFirst st e).1.nbytes = st.nbytes - entrySize e ∧
      (lruRemoveEntryFirst st e).1.maxBytes = st.maxBytes ∧
      (lruRemoveEntryFirst st e).2 = [(e.key, e.value)] := by
  refine ⟨?_, ?_, ?_, ?_⟩ <;>
    simp only [lruRemoveEntryFirst] <;>
    first
      | rfl
      | (split <;> rfl)

theorem lrukGet_eq_miss {V : Type} [GoValue V] (st : LRUK V) (key : String) (now : Int)
    (hfind : st.ll.find? (fun x => x.key == key) = none) :
    lrukGet st key now =
      (none,
        { st with
          history := histStore st.history key (truncHistory st.k (((st.history key).getD []) ++ [now])) },
        []) := by
  simp [lrukGet, hfind]

theorem lrukGet_eq_expired {V : Type} [GoValue V] (st : LRUK V) (key : String) (now : Int)
    (e : KEntry V) (hfind : st.ll.find? (fun x => x.key == key) = some e)
    (hex : 0 < e.expiresAt ∧ e.expiresAt < now) :
    lrukGet st key now = (none, (lrukRemoveEntryFirst st e).1, (lrukRemoveEntryFirst st e).2) := by
  simp [lrukGet, hfind, hex]

theorem lrukGet_eq_hit {V : Type} [GoValue V] (st : LRUK V) (key : String) (now : Int)
    (e : KEntry V) (hfind : st.ll.find? (fun x => x.key == key) = some e)
    (hnex : ¬(0 < e.expiresAt ∧ e.expiresAt < now)) :
    lrukGet st key now =
      (some e.value,
        { st with ll := KEntry.mk e.key e.value e.expiresAt now :: st.ll.eraseP (fun x => x.key == key) },
        []) := by
  simp [lrukGet, hfind, hnex]

theorem lrukRemoveEntryFirst_proj {V : Type} [GoValue V] (st : LRUK V) (e : KEntry V) :
    (lrukRemoveEntryFirst st e).1.ll = st.ll.eraseP (fun x => x.key == e.key) ∧
      (lrukRemoveEntryFirst st e).1.nbytes = st.nbytes - kentrySize e ∧
      (lrukRemoveEntryFirst st e).1.maxBytes = st.maxBytes ∧
      (lrukRemoveEntryFirst st e).1.history = histDelete st.history e.key ∧
      (lrukRemoveEntryFirst st e).1.k = st.k ∧
      (lrukRemoveEntryFirst st e).2 = [(e.key, e.value)] := by
  refine ⟨?_, ?_, ?_, ?_, ?_, ?_⟩ <;>
    simp only [lrukRemoveEntryFirst] <;>
    first
      | rfl
      | (split <;> rfl)

theorem lrukAdd_case_promote {V : Type} [GoValue V] (st : LRUK V) (key : String) (v : V)
    (ttl now : Int) (hfind : st.ll.find? (fun x => x.key == key) = none)
    (hsc : (st.history key).isNone ∨
      st.k ≤ (truncHistory st.k (((st.history key).getD []) ++ [now])).length) :
    ∃ hp : HeapState, (lrukAdd st key v ttl now).1 =
      (lrukEvict (st.ll.length + 1)
        { st with
          history := histStore st.history key (truncHistory st.k (((st.history key).getD []) ++ [now]))
          ll := KEntry.mk key v (if 0 < ttl then now + ttl else 0) now :: st.ll
          nbytes := st.nbytes + (key.length : Int) + (GoValue.len v : Int)
          heap := hp }).1 := by
  simp only [lrukAdd, hfind]
  rw [if_pos hsc]
  by_cases hb : 0 < (if 0 < ttl then now + ttl else 0 : Int)
  · simp only [if_pos hb]
    exact ⟨_, rfl⟩
  · simp only [if_neg hb]
    exact ⟨_, rfl⟩

theorem lrukAdd_case_skip {V : Type} [GoValue V] (st : LRUK V) (key : String) (v : V)
    (ttl now : Int) (hfind : st.ll.find? (fun x => x.key == key) = none)
    (hsc : ¬((st.history key).isNone ∨
      st.k ≤ (truncHistory st.k (((st.history key).getD []) ++ [now])).length)) :
    lrukAdd st key v ttl now =
      ({ st with
        history := histStore st.history key (truncHistory st.k (((st.history key).getD []) ++ [now])) },
        []) := by
  simp only [lrukAdd, hfind]
  rw [if_neg hsc]

theorem lrukAdd_case_update {V : Type} [GoValue V] (st : LRUK V) (key : String) (v : V)
    (ttl now : Int) (e : KEntry V) (hfind : st.ll.find? (fun x => x.key == key) = some e) :
    ∃ hp : HeapState, lrukAdd st key v ttl now =
      ({ st with
        ll := KEntry.mk e.key v (if 0 < ttl then now + ttl else 0) now :: st.ll.eraseP (fun x => x.key == key)
        nbytes := st.nbytes + (GoValue.len v : Int) - (GoValue.len e.value : Int)
        heap := hp }, []) := by
  simp only [lrukAdd, hfind]
  by_cases hc : 0 < e.expiresAt ∨ 0 < (if 0 < ttl then now + ttl else 0 : Int)
  · simp only [if_pos hc]
    exact ⟨_, rfl⟩
  · simp only [if_neg hc]
    exact ⟨_, rfl⟩

theorem lruAdd_bound {V : Type} [GoValue V] (st : LRU V) (key : String) (v : V) (ttl now : Int)
    (hwf : lruWF st) (hmb : 0 < st.maxBytes) :
    lruWF (lruAdd st key v ttl now).1 ∧
      (lruAdd st key v ttl now).1.maxBytes = st.maxBytes ∧
      (lruAdd st key v ttl now).1.nbytes ≤ st.maxBytes := by
  cases hfind : st.ll.find? (fun x => x.key == key) with
  | none =>
    obtain ⟨hp, heq⟩ := lruAdd_case_none st key v ttl now hfind
    rw [heq]
    have hwfN : lruWF
        { st with
          ll := Entry.mk key v (if 0 < ttl then now + ttl else 0) :: st.ll
          nbytes := st.nbytes + (key.length : Int) + (GoValue.len v : Int)
          heap := hp } := by
      show st.nbytes + (key.length : Int) + (GoValue.len v : Int) = _
      simp only [lruSum, List.map_cons, List.sum_cons, entrySize]
      rw [hwf]
      simp only [lruSum]
      ring
    exact lruEvict_bound (st.ll.length + 1) _ hwfN hmb (by simp)
  | some e =>
    have hek : e.key = key := by
      have := List.find?_some hfind
      simpa using this
    obtain ⟨hp, heq⟩ := lruAdd_case_some st key v ttl now e hfind
    rw [heq]
    have hwfS : lruWF
        { st with
          ll := Entry.mk e.key v (if 0 < ttl then now + ttl else 0) :: st.ll.eraseP (fun x => x.key == key)
          nbytes := st.nbytes + (GoValue.len v : Int) - (GoValue.len e.value : Int)
          heap := hp } := by
      show st.nbytes + (GoValue.len v : Int) - (GoValue.len e.value : Int) = _
      simp only [lruSum, List.map_cons, List.sum_cons]
      rw [show ((st.ll.eraseP (fun x => x.key == key)).map entrySize).sum
          = (st.ll.map entrySize).sum - entrySize e from
        sumMap_eraseP entrySize _ st.ll e hfind]
      rw [hwf]
      simp only [lruSum, entrySize, hek]
      ring
    exact lruEvict_bound ((st.ll.eraseP (fun x => x.key == key)).length + 1) _ hwfS hmb (by simp)

theorem lruGet_bound {V : Type} [GoValue V] (st : LRU V) (key : String) (now : Int)
    (hwf : lruWF st) :
    lruWF (lruGet st key now).2.1 ∧
      (lruGet st key now).2.1.maxBytes = st.maxBytes ∧
      (lruGet st key now).2.1.nbytes ≤ st.nbytes := by
  cases hfind : st.ll.find? (fun x => x.key == key) with
  | none =>
    rw [lruGet_eq_miss st key now hfind]
    exact ⟨hwf, rfl, le_refl _⟩
  | some e =>
    have hek : e.key = key := by
      have := List.find?_some hfind
      simpa using this
    by_cases hex : 0 < e.expiresAt ∧ e.expiresAt < now
    · rw [lruGet_eq_expired st key now e hfind hex]
      obtain ⟨hll, hnb, hmx, _⟩ := lruRemoveEntryFirst_proj st e
      refine ⟨?_, by rw [hmx], ?_⟩
      · rw [lruWF, hnb, hll, lruSum, hek]
        rw [sumMap_eraseP entrySize _ st.ll e hfind]
        rw [hwf]
        rfl
      · rw [hnb]
        have := entrySize_nonneg e
        omega
    · rw [lruGet_eq_hit st key now e hfind hex]
      refine ⟨?_, rfl, le_refl _⟩
      show st.nbytes = _
      simp only [lruSum, List.map_cons, List.sum_cons]
      rw [sumMap_eraseP entrySize _ st.ll e hfind]
      rw [hwf]
      simp only [lruSum]
      ring

theorem lruRemoveOldest_bound {V : Type} [GoValue V] (st : LRU V) (hwf : lruWF st) :
    lruWF (lruRemoveOldest st).1 ∧
      (lruRemoveOldest st).1.maxBytes = st.maxBytes ∧
      (lruRemoveOldest st).1.nbytes ≤ st.nbytes := by
  cases hlast : st.ll.getLast? with
  | none =>
    have hred : lruRemoveOldest st = (st, []) := by simp only [lruRemoveOldest, hlast]
    rw [hred]
    exact ⟨hwf, rfl, le_refl _⟩
  | some e =>
    obtain ⟨hll, hnb, hmx⟩ := lruRemoveOldest_proj st e hlast
    refine ⟨?_, hmx, ?_⟩
    · rw [lruWF, hnb, hll, lruSum, sumMap_dropLast entrySize st.ll e hlast, hwf]
      rfl
    · rw [hnb]
      have := entrySize_nonneg e
      omega

theorem lruStep_preserves {V : Type} [GoValue V] (st : LRU V) (op : EngOp V)
    (hwf : lruWF st) (hmb : 0 < st.maxBytes) (hb : st.nbytes ≤ st.maxBytes) :
    lruWF (lruStep st op) ∧ (lruStep st op).maxBytes = st.maxBytes ∧
      (lruStep st op).nbytes ≤ st.maxBytes := by
  cases op with
  | add key v ttl now => exact lruAdd_bound st key v ttl now hwf hmb
  | get key now =>
    obtain ⟨h1, h2, h3⟩ := lruGet_bound st key now hwf
    exact ⟨h1, h2, le_trans h3 hb⟩
  | removeOldest =>
    obtain ⟨h1, h2, h3⟩ := lruRemoveOldest_bound st hwf
    exact ⟨h1, h2, le_trans h3 hb⟩

theorem lruRunOps_preserves {V : Type} [GoValue V] :
    ∀ (ops : List (EngOp V)) (st : LRU V), lruWF st → 0 < st.maxBytes →
      st.nbytes ≤ st.maxBytes →
      lruWF (lruRunOps st ops) ∧ (lruRunOps st ops).maxBytes = st.maxBytes ∧
        (lruRunOps st ops).nbytes ≤ st.maxBytes
  | [], st, hwf, _, hb => ⟨hwf, rfl, hb⟩
  | op :: ops, st, hwf, hmb, hb => by
    obtain ⟨h1, h2, h3⟩ := lruStep_preserves st op hwf hmb hb
    have ih := lruRunOps_preserves ops (lruStep st op) h1 (h2 ▸ hmb) (h2 ▸ h3)
    rw [show lruRunOps st (op :: ops) = lruRunOps (lruStep st op) ops from rfl]
    exact ⟨ih.1, by rw [ih.2.1, h2], le_trans ih.2.2 (le_of_eq h2)⟩

theorem lrukAdd_bound_new {V : Type} [GoValue V] (st : LRUK V) (key : String) (v : V)
    (ttl now : Int) (hfind : st.ll.find? (fun x => x.key == key) = none)
    (hwf : lrukWF st) (hmb : 0 < st.maxBytes) (hb : st.nbytes ≤ st.maxBytes) :
    lrukWF (lrukAdd st key v ttl now).1 ∧
      (lrukAdd st key v ttl now).1.maxBytes = st.maxBytes ∧
      (lrukAdd st key v ttl now).1.nbytes ≤ st.maxBytes := by
  by_cases hsc : (st.history key).isNone ∨
      st.k ≤ (truncHistory st.k (((st.history key).getD []) ++ [now])).length
  · obtain ⟨hp, heq⟩ := lrukAdd_case_promote st key v ttl now hfind hsc
    rw [heq]
    have hwfP : lrukWF
        { st with
          history := histStore st.history key (truncHistory st.k (((st.history key).getD []) ++ [now]))
          ll := KEntry.mk key v (if 0 < ttl then now + ttl else 0) now :: st.ll
          nbytes := st.nbytes + (key.length : Int) + (GoValue.len v : Int)
          heap := hp } := by
      show st.nbytes + (key.length : Int) + (GoValue.len v : Int) = _
      simp only [lrukSum, List.map_cons, List.sum_cons, kentrySize]
      rw [hwf]
      simp only [lrukSum]
      ring
    exact lrukEvict_bound (st.ll.length + 1) _ hwfP hmb (by simp)
  · rw [lrukAdd_case_skip st key v ttl now hfind hsc]
    exact ⟨hwf, rfl, hb⟩

theorem lrukGet_bound {V : Type} [GoValue V] (st : LRUK V) (key : String) (now : Int)
    (hwf : lrukWF st) :
    lrukWF (lrukGet st key now).2.1 ∧
      (lrukGet st key now).2.1.maxBytes = st.maxBytes ∧
      (lrukGet st key now).2.1.nbytes ≤ st.nbytes := by
  cases hfind : st.ll.find? (fun x => x.key == key) with
  | none =>
    rw [lrukGet_eq_miss st key now hfind]
    exact ⟨hwf, rfl, le_refl _⟩
  | some e =>
    have hek : e.key = key := by
      have := List.find?_some hfind
      simpa using this
    by_cases hex : 0 < e.expiresAt ∧ e.expiresAt < now
    · rw [lrukGet_eq_expired st key now e hfind hex]
      obtain ⟨hll, hnb, hmx, _, _, _⟩ := lrukRemoveEntryFirst_proj st e
      refine ⟨?_, by rw [hmx], ?_⟩
      · rw [lrukWF, hnb, hll, lrukSum, hek]
        rw [sumMap_eraseP kentrySize _ st.ll e hfind]
        rw [hwf]
        rfl
      · rw [hnb]
        have := kentrySize_nonneg e
        omega
    · rw [lrukGet_eq_hit st key now e hfind hex]
      refine ⟨?_, rfl, le_refl _⟩
      show st.nbytes = _
      simp only [lrukSum, List.map_cons, List.sum_cons]
      rw [sumMap_eraseP kentrySize _ st.ll e hfind]
      rw [hwf]
      simp only [lrukSum, kentrySize]
      ring

theorem lrukRemoveOldest_bound {V : Type} [GoValue V] (st : LRUK V) (hwf : lrukWF st) :
    lrukWF (lrukRemoveOldest st).1 ∧
      (lrukRemoveOldest st).1.maxBytes = st.maxBytes ∧
      (lrukRemoveOldest st).1.nbytes ≤ st.nbytes := by
  cases hlast : st.ll.getLast? with
  | none =>
    have hred : lrukRemoveOldest st = (st, []) := by simp only [lrukRemoveOldest, hlast]
    rw [hred]
    exact ⟨hwf, rfl, le_refl _⟩
  | some e =>
    obtain ⟨hll, hnb, hmx⟩ := lrukRemoveOldest_proj st e hlast
    refine ⟨?_, hmx, ?_⟩
    · rw [lrukWF, hnb, hll, lrukSum, sumMap_dropLast kentrySize st.ll e hlast, hwf]
      rfl
    · rw [hnb]
      have := kentrySize_nonneg e
      omega

theorem lrukStep_preserves {V : Type} [GoValue V] (st : LRUK V) (op : EngOp V)
    (hwf : lrukWF st) (hmb : 0 < st.maxBytes) (hb : st.nbytes ≤ st.maxBytes)
    (hadd : ∀ k v ttl now, op = EngOp.add k v ttl now →
      st.ll.find? (fun x => x.key == k) = none) :
    lrukWF (lrukStep st op) ∧ (lrukStep st op).maxBytes = st.maxBytes ∧
      (lrukStep st op).nbytes ≤ st.maxBytes := by
  cases op with
  | add key v ttl now =>
    exact lrukAdd_bound_new st key v ttl now (hadd key v ttl now rfl) hwf hmb hb
  | get key now =>
    obtain ⟨h1, h2, h3⟩ := lrukGet_bound st key now hwf
    exact ⟨h1, h2, le_trans h3 hb⟩
  | removeOldest =>
    obtain ⟨h1, h2, h3⟩ := lrukRemoveOldest_bound st hwf
    exact ⟨h1, h2, le_trans h3 hb⟩

theorem hmInsert_ne (m : HeapMap) (kk k : String) (i : Nat) (h : k ≠ kk) :
    hmInsert m kk i k = m k := by
  simp [hmInsert, h]

theorem hmErase_self (m : HeapMap) (k : String) : hmErase m k k = none := by
  simp [hmErase]

theorem getD_key_ne_of_absent {k : String} {arr : List HeapItem} (j : Nat)
    (habs : keyAbsent k arr) (hk : k ≠ "") : (arr.getD j defaultItem).key ≠ k := by
  by_cases hj : j < arr.length
  · exact habs j hj
  · rw [List.getD_eq_default _ _ (le_of_not_lt hj)]
    intro hc
    exact hk (by simpa [defaultItem] using hc.symm)

theorem getD_set_eq_cases (l : List HeapItem) (i j : Nat) (x d : HeapItem) :
    (i = j ∧ i < l.length ∧ (l.set i x).getD j d = x) ∨
      (¬(i = j ∧ i < l.length) ∧ (l.set i x).getD j d = l.getD j d) := by
  by_cases hij : i = j
  · subst hij
    by_cases hil : i < l.length
    · refine Or.inl ⟨rfl, hil, ?_⟩
      rw [List.getD_eq_getElem?_getD, List.getElem?_set]
      simp [hil]
    · refine Or.inr ⟨by tauto, ?_⟩
      rw [List.getD_eq_getElem?_getD, List.getElem?_set, List.getD_eq_getElem?_getD]
      simp only [if_pos rfl, if_neg hil]
      rw [List.getElem?_eq_none (le_of_not_lt hil)]
      simp
  · refine Or.inr ⟨by tauto, ?_⟩
    rw [List.getD_eq_getElem?_getD, List.getElem?_set, List.getD_eq_getElem?_getD]
    simp [hij]

theorem keyAbsent_set {k : String} {l : List HeapItem} {i : Nat} {x : HeapItem}
    (hx : x.key ≠ k) (habs : keyAbsent k l) (hk : k ≠ "") : keyAbsent k (l.set i x) := by
  intro j hj
  rcases getD_set_eq_cases l i j x defaultItem with ⟨_, _, heq⟩ | ⟨_, heq⟩
  · rw [heq]; exact hx
  · rw [heq]; exact getD_key_ne_of_absent j habs hk

theorem heapifyUpF_absent :
    ∀ (fuel : Nat) (h : HeapState) (index : Nat) (k : String), k ≠ "" →
      keyAbsent k h.arr → h.map k = none →
      (heapifyUpF fuel h index).map k = none ∧ keyAbsent k (heapifyUpF fuel h index).arr
  | 0, h, _, k, _, habs, hm => ⟨hm, habs⟩
  | fuel + 1, h, index, k, hk, habs, hm => by
    by_cases h0 : index = 0
    · simp only [heapifyUpF, if_pos h0]
      exact ⟨hm, habs⟩
    · by_cases hle : (h.arr.getD ((index - 1) / 2) defaultItem).expiresAt ≤
          (h.arr.getD index defaultItem).expiresAt
      · simp only [heapifyUpF, if_neg h0, if_pos hle]
        exact ⟨hm, habs⟩
      · have ha : (h.arr.getD index defaultItem).key ≠ k := getD_key_ne_of_absent index habs hk
        have hb : (h.arr.getD ((index - 1) / 2) defaultItem).key ≠ k :=
          getD_key_ne_of_absent _ habs hk
        have habs' : keyAbsent k ((h.arr.set index (h.arr.getD ((index - 1) / 2) defaultItem)).set
            ((index - 1) / 2) (h.arr.getD index defaultItem)) :=
          keyAbsent_set ha (keyAbsent_set hb habs hk) hk
        have hm' : hmInsert (hmInsert h.map (h.arr.getD ((index - 1) / 2) defaultItem).key index)
            (h.arr.getD index defaultItem).key ((index - 1) / 2) k = none := by
          rw [hmInsert_ne _ _ _ _ (fun hc => ha hc.symm),
            hmInsert_ne _ _ _ _ (fun hc => hb hc.symm), hm]
        have ih := heapifyUpF_absent fuel
          ⟨(h.arr.set index (h.arr.getD ((index - 1) / 2) defaultItem)).set
              ((index - 1) / 2) (h.arr.getD index defaultItem),
            hmInsert (hmInsert h.map (h.arr.getD ((index - 1) / 2) defaultItem).key index)
              (h.arr.getD index defaultItem).key ((index - 1) / 2)⟩
          ((index - 1) / 2) k hk habs' hm'
        simp only [heapifyUpF, if_neg h0, if_neg hle]
        exact ih

theorem heapifyDownF_absent :
    ∀ (fuel : Nat) (h : HeapState) (index : Nat) (k : String), k ≠ "" →
      keyAbsent k h.arr → h.map k = none →
      (heapifyDownF fuel h index).map k = none ∧ keyAbsent k (heapifyDownF fuel h index).arr
  | 0, h, _, k, _, habs, hm => ⟨hm, habs⟩
  | fuel + 1, h, index, k, hk, habs, hm => by
    by_cases hs : smallestIdx h index = index
    · simp only [heapifyDownF, if_pos hs]
      exact ⟨hm, habs⟩
    · have ha : (h.arr.getD index defaultItem).key ≠ k := getD_key_ne_of_absent index habs hk
      have hb : (h.arr.getD (smallestIdx h index) defaultItem).key ≠ k :=
        getD_key_ne_of_absent _ habs hk
      have habs' : keyAbsent k ((h.arr.set index (h.arr.getD (smallestIdx h index) defaultItem)).set
          (smallestIdx h index) (h.arr.getD index defaultItem)) :=
        keyAbsent_set ha (keyAbsent_set hb habs hk) hk
      have hm' : hmInsert (hmInsert h.map (h.arr.getD (smallestIdx h index) defaultItem).key index)
          (h.arr.getD index defaultItem).key (smallestIdx h index) k = none := by
        rw [hmInsert_ne _ _ _ _ (fun hc => ha hc.symm),
          hmInsert_ne _ _ _ _ (fun hc => hb hc.symm), hm]
      have ih := heapifyDownF_absent fuel
        ⟨(h.arr.set index (h.arr.getD (smallestIdx h index) defaultItem)).set
            (smallestIdx h index) (h.arr.getD index defaultItem),
          hmInsert (hmInsert h.map (h.arr.getD (smallestIdx h index) defaultItem).key index)
            (h.arr.getD index defaultItem).key (smallestIdx h index)⟩
        (smallestIdx h index) k hk habs' hm'
      simp only [heapifyDownF, if_neg hs]
      exact ih

theorem getD_take_lt (l : List HeapItem) (n j : Nat) (d : HeapItem) (hj : j < n) :
    (l.take n).getD j d = l.getD j d := by
  rw [List.getD_eq_getElem?_getD, List.getElem?_take, if_pos hj, ← List.getD_eq_getElem?_getD]

theorem heapify_chain_absent (arr : List HeapItem) (m : HeapMap) (index : Nat) (key : String)
    (hk : key ≠ "") (habs : keyAbsent key arr) (hm : m key = none) :
    (if index < arr.length then heapifyUp (heapifyDown ⟨arr, m⟩ index) index
        else (⟨arr, m⟩ : HeapState)).map key = none ∧
      keyAbsent key (if index < arr.length then heapifyUp (heapifyDown ⟨arr, m⟩ index) index
        else (⟨arr, m⟩ : HeapState)).arr := by
  split
  · have h1 := heapifyDownF_absent arr.length ⟨arr, m⟩ index key hk habs hm
    exact heapifyUpF_absent _ _ index key hk h1.2 h1.1
  · exact ⟨hm, habs⟩

theorem removeFromHeapPooled_eq_main (h : HeapState) (key : String) (index : Nat)
    (hmk : h.map key = some index) (hidx : index < h.arr.length) :
    removeFromHeapPooled h key =
      (let lastIndex := h.arr.length - 1
       let moved := h.arr.getD lastIndex defaultItem
       let arr2 := (h.arr.set index moved).take lastIndex
       let arr3 := if index < arr2.length then arr2.set index defaultItem else arr2
       let map2 := hmErase (hmInsert h.map moved.key index) key
       if index < arr3.length then heapifyUp (heapifyDown ⟨arr3, map2⟩ index) index
       else (⟨arr3, map2⟩ : HeapState)) := by
  simp only [removeFromHeapPooled, hmk, if_neg (not_le.mpr hidx)]

theorem removeFromHeapPooled_key_none (h : HeapState) (key : String) (hk : key ≠ "")
    (hsync : ∀ j, j < h.arr.length →
      (((h.arr.getD j defaultItem).key = key) ↔ h.map key = some j)) :
    (removeFromHeapPooled h key).map key = none ∧
      keyAbsent key (removeFromHeapPooled h key).arr := by
  cases hmk : h.map key with
  | none =>
    have habs : keyAbsent key h.arr := by
      intro j hj hc
      have := (hsync j hj).mp hc
      rw [hmk] at this
      cases this
    have hred : removeFromHeapPooled h key = h := by
      simp only [removeFromHeapPooled, hmk]
    rw [hred]
    exact ⟨hmk, habs⟩
  | some index =>
    by_cases hib : index ≥ h.arr.length
    · have hred : removeFromHeapPooled h key = ⟨h.arr, hmErase h.map key⟩ := by
        simp only [removeFromHeapPooled, hmk, if_pos hib]
      rw [hred]
      refine ⟨hmErase_self h.map key, ?_⟩
      intro j hj hc
      have hj' : j < h.arr.length := hj
      have h2 := (hsync j hj').mp hc
      rw [hmk] at h2
      have : index = j := Option.some_inj.mp h2
      omega
    · have hidx : index < h.arr.length := lt_of_not_ge hib
      have hlen0 : 0 < h.arr.length := Nat.pos_of_ne_zero (by omega)
      have huniq : ∀ j, j < h.arr.length → j ≠ index →
          (h.arr.getD j defaultItem).key ≠ key := by
        intro j hj hji hc
        have h2 := (hsync j hj).mp hc
        rw [hmk] at h2
        exact hji (Option.some_inj.mp h2).symm
      rw [removeFromHeapPooled_eq_main h key index hmk hidx]
      have habs2 : keyAbsent key ((h.arr.set index
          (h.arr.getD (h.arr.length - 1) defaultItem)).take (h.arr.length - 1)) := by
        intro j hj
        have hj2 : j < h.arr.length - 1 := by
          simpa [List.length_take, List.length_set] using hj
        rw [getD_take_lt _ _ _ _ hj2]
        rcases getD_set_eq_cases h.arr index j
            (h.arr.getD (h.arr.length - 1) defaultItem) defaultItem with ⟨hij, _, heq⟩ | ⟨hnij, heq⟩
        · rw [heq]
          exact huniq (h.arr.length - 1) (by omega) (by omega)
        · rw [heq]
          have hjidx : j ≠ index := by
            intro hc
            exact hnij ⟨hc.symm, hidx⟩
          exact huniq j (by omega) hjidx
      have habs3 : keyAbsent key (if index <
          ((h.arr.set index (h.arr.getD (h.arr.length - 1) defaultItem)).take
            (h.arr.length - 1)).length
          then ((h.arr.set index (h.arr.getD (h.arr.length - 1) defaultItem)).take
            (h.arr.length - 1)).set index defaultItem
          else (h.arr.set index (h.arr.getD (h.arr.length - 1) defaultItem)).take
            (h.arr.length - 1)) := by
        split
        · exact keyAbsent_set (fun hc => hk hc.symm) habs2 hk
        · exact habs2
      exact heapify_chain_absent _ _ index key hk habs3
        (hmErase_self (hmInsert h.map (h.arr.getD (h.arr.length - 1) defaultItem).key index) key)

theorem find?_eraseP_of_count {α : Type _} (p : α → Bool) :
    ∀ l : List α, l.countP p ≤ 1 → (l.eraseP p).find? p = none
  | [], _ => rfl
  | a :: t, hc => by
    by_cases hp : p a
    · rw [List.eraseP_cons_of_pos hp]
      rw [List.countP_cons, if_pos hp] at hc
      have ht : t.countP p = 0 := by omega
      rw [List.find?_eq_none]
      intro x hx
      exact (List.countP_eq_zero.mp ht) x hx
    · rw [List.eraseP_cons_of_neg (by simpa using hp)]
      rw [List.find?_cons_of_neg _ hp]
      rw [List.countP_cons, if_neg hp, add_zero] at hc
      exact find?_eraseP_of_count p t hc

theorem lruRemoveEntryFirst_heap_pos {V : Type} [GoValue V] (st : LRU V) (e : Entry V)
    (hpos : 0 < e.expiresAt) :
    (lruRemoveEntryFirst st e).1.heap = removeFromHeapPooled st.heap e.key := by
  simp only [lruRemoveEntryFirst, if_pos hpos]

/-- C3: the three branches of LRU `Get`: miss, expired-hit removal
(entry, heap item, `OnEvicted`), and the move-to-front hit. -/
theorem lru_get_contract {V : Type} [GoValue V] (st : LRU V) (key : String) (now : Int)
    (hk : key ≠ "")
    (hcount : st.ll.countP (fun x => x.key == key) ≤ 1)
    (hsync : ∀ j, j < st.heap.arr.length →
      (((st.heap.arr.getD j defaultItem).key = key) ↔ st.heap.map key = some j)) :
    (st.ll.find? (fun x => x.key == key) = none →
        lruGet st key now = (none, st, [])) ∧
    (∀ e, st.ll.find? (fun x => x.key == key) = some e →
        0 < e.expiresAt → e.expiresAt < now →
        (lruGet st key now).1 = none ∧
        (lruGet st key now).2.1.ll.find? (fun x => x.key == key) = none ∧
        (lruGet st key now).2.1.heap.map key = none ∧
        (lruGet st key now).2.2 = [(key, e.value)]) ∧
    (∀ e, st.ll.find? (fun x => x.key == key) = some e →
        ¬(0 < e.expiresAt ∧ e.expiresAt < now) →
        (lruGet st key now).1 = some e.value ∧
        (lruGet st key now).2.1.ll.head? = some e ∧
        (lruGet st key now).2.2 = []) := by
  refine ⟨fun hfind => lruGet_eq_miss st key now hfind, ?_, ?_⟩
  · intro e hfind hpos hlt
    have hek : e.key = key := by
      have := List.find?_some hfind
      simpa using this
    rw [lruGet_eq_expired st key now e hfind ⟨hpos, hlt⟩]
    obtain ⟨hll, _, _, hev⟩ := lruRemoveEntryFirst_proj st e
    refine ⟨rfl, ?_, ?_, ?_⟩
    · show (lruRemoveEntryFirst st e).1.ll.find? (fun x => x.key == key) = none
      rw [hll, hek]
      exact find?_eraseP_of_count _ st.ll hcount
    · show (lruRemoveEntryFirst st e).1.heap.map key = none
      rw [lruRemoveEntryFirst_heap_pos st e hpos, hek]
      exact (removeFromHeapPooled_key_none st.heap key hk hsync).1
    · show (lruRemoveEntryFirst st e).2 = [(key, e.value)]
      rw [hev, hek]
  · intro e hfind hnex
    rw [lruGet_eq_hit st key now e hfind hnex]
    exact ⟨rfl, rfl, rfl⟩

def c3State : LRU String := ⟨0, 3, [⟨"a", "vv", 5⟩], ⟨[⟨"a", 5⟩], hmInsert (fun _ => none) "a" 0⟩⟩

theorem lru_get_contract_witness :
    (("a" : String) ≠ "" ∧ c3State.ll.countP (fun x => x.key == "a") ≤ 1) ∧
    ((lruGet c3State "a" 10).1 = none ∧
      (lruGet c3State "a" 10).2.1.ll.find? (fun x => x.key == "a") = none ∧
      (lruGet c3State "a" 10).2.1.heap.map "a" = none ∧
      (lruGet c3State "a" 10).2.2 = [("a", "vv")]) := by
  refine ⟨⟨by decide, by decide⟩, ?_⟩
  exact (lru_get_contract c3State "a" 10 (by decide) (by decide) (by decide)).2.1
    ⟨"a", "vv", 5⟩ (by decide) (by decide) (by decide)

theorem find?_isSome_of_head {α : Type _} (l : List α) (p : α → Bool) (x : α)
    (hh : l.head? = some x) (hp : p x = true) : (l.find? p).isSome := by
  cases l with
  | nil => simp at hh
  | cons a t =>
    simp only [List.head?_cons, Option.some_inj] at hh
    subst hh
    rw [List.find?_cons_of_pos _ hp]
    rfl

theorem lrukAdd_promote_head {V : Type} [GoValue V] (st : LRUK V) (key : String) (v : V)
    (ttl now : Int) (hfind : st.ll.find? (fun x => x.key == key) = none)
    (hsc : (st.history key).isNone ∨
      st.k ≤ (truncHistory st.k (((st.history key).getD []) ++ [now])).length)
    (hwf : lrukWF st)
    (hfit : st.maxBytes = 0 ∨ (key.length : Int) + (GoValue.len v : Int) ≤ st.maxBytes) :
    (lrukAdd st key v ttl now).1.ll.head? =
      some (KEntry.mk key v (if 0 < ttl then now + ttl else 0) now) := by
  obtain ⟨hp, heq⟩ := lrukAdd_case_promote st key v ttl now hfind hsc
  rw [heq]
  have hwfP : lrukWF
      { st with
        history := histStore st.history key (truncHistory st.k (((st.history key).getD []) ++ [now]))
        ll := KEntry.mk key v (if 0 < ttl then now + ttl else 0) now :: st.ll
        nbytes := st.nbytes + (key.length : Int) + (GoValue.len v : Int)
        heap := hp } := by
    show st.nbytes + (key.length : Int) + (GoValue.len v : Int) = _
    simp only [lrukSum, List.map_cons, List.sum_cons, kentrySize]
    rw [hwf]
    simp only [lrukSum]
    ring
  have h := lrukEvict_head (st.ll.length + 1) _
    (KEntry.mk key v (if 0 < ttl then now + ttl else 0) now) hwfP rfl
    (by
      rcases hfit with h | h
      · exact Or.inl h
      · exact Or.inr (by simpa [kentrySize] using h))
  exact h.1

/-- C1 (amended): for a key not in the LRU-K cache, `Add` admits it
iff the key has no recorded history (first-ever observation) or the
truncated history, including this observation, has length at least K;
the fit hypothesis keeps the fresh entry from being evicted by the
capacity loop of the same `Add`. -/
theorem lruk_admission_iff_amended {V : Type} [GoValue V] (st : LRUK V) (key : String) (v : V)
    (ttl now : Int) (hfind : st.ll.find? (fun x => x.key == key) = none)
    (hwf : lrukWF st)
    (hfit : st.maxBytes = 0 ∨ (key.length : Int) + (GoValue.len v : Int) ≤ st.maxBytes) :
    ((lrukAdd st key v ttl now).1.ll.find? (fun x => x.key == key)).isSome ↔
      ((st.history key).isNone ∨
        st.k ≤ (truncHistory st.k (((st.history key).getD []) ++ [now])).length) := by
  by_cases hsc : (st.history key).isNone ∨
      st.k ≤ (truncHistory st.k (((st.history key).getD []) ++ [now])).length
  · refine iff_of_true ?_ hsc
    exact find?_isSome_of_head _ _ _ (lrukAdd_promote_head st key v ttl now hfind hsc hwf hfit)
      (by simp)
  · refine iff_of_false ?_ hsc
    rw [lrukAdd_case_skip st key v ttl now hfind hsc]
    show ¬((st.ll.find? (fun x => x.key == key)).isSome = true)
    rw [hfind]
    simp

/-- C1 counterexample: on a fresh LRU-K cache with K = 2, the very
first `Add` of a never-observed key admits it although its truncated
history then has length 1 < K. -/
theorem lruk_admission_first_add_counterexample :
    ((lrukAdd (lrukNew String 0 2) "a" "v" 0 5).1.ll.find? (fun x => x.key == "a")).isSome = true ∧
      (((lrukAdd (lrukNew String 0 2) "a" "v" 0 5).1.history "a").getD []).length = 1 ∧
      (lrukNew String 0 2).k = 2 := by
  decide

theorem lruk_admission_iff_amended_witness :
    ((lrukNew String 0 2).ll.find? (fun x => x.key == "b") = none) ∧
    (((lrukAdd (lrukNew String 0 2) "b" "w" 0 7).1.ll.find? (fun x => x.key == "b")).isSome ↔
      (((lrukNew String 0 2).history "b").isNone ∨
        (lrukNew String 0 2).k ≤
          (truncHistory (lrukNew String 0 2).k
            ((((lrukNew String 0 2).history "b").getD []) ++ [7])).length)) :=
  ⟨by decide, lruk_admission_iff_amended (lrukNew String 0 2) "b" "w" 0 7
    (by decide) (by decide) (by decide)⟩

theorem histDelete_self (m : HistMap) (k : String) : histDelete m k k = none := by
  simp [histDelete]

theorem lrukRemoveEntryFirst_heap_pos {V : Type} [GoValue V] (st : LRUK V) (e : KEntry V)
    (hpos : 0 < e.expiresAt) :
    (lrukRemoveEntryFirst st e).1.heap = removeFromHeapK st.heap e.key := by
  simp only [lrukRemoveEntryFirst, if_pos hpos]

/-- C10 (amended): an LRU-K `Get` that hits an expired entry removes
the entry, deletes the key's entire history, fires `OnEvicted` once,
and returns no value without recording the access; admission then
restarts from an empty history, so the next `Add` of the key re-admits
it immediately under the first-ever-observation rule (while Get misses
would accumulate history from zero). -/
theorem lruk_expired_get_contract_amended {V : Type} [GoValue V] (st : LRUK V) (key : String)
    (now : Int) (e : KEntry V)
    (hcount : st.ll.countP (fun x => x.key == key) ≤ 1)
    (hwf : lrukWF st)
    (hfind : st.ll.find? (fun x => x.key == key) = some e)
    (hpos : 0 < e.expiresAt) (hlt : e.expiresAt < now) :
    (lrukGet st key now).1 = none ∧
    (lrukGet st key now).2.1.ll.find? (fun x => x.key == key) = none ∧
    (lrukGet st key now).2.1.history key = none ∧
    (lrukGet st key now).2.2 = [(key, e.value)] ∧
    (∀ (v : V) (ttl now2 : Int),
      st.maxBytes = 0 ∨ (key.length : Int) + (GoValue.len v : Int) ≤ st.maxBytes →
      ((lrukAdd (lrukGet st key now).2.1 key v ttl now2).1.ll.find?
        (fun x => x.key == key)).isSome) := by
  have hek : e.key = key := by
    have := List.find?_some hfind
    simpa using this
  rw [lrukGet_eq_expired st key now e hfind ⟨hpos, hlt⟩]
  obtain ⟨hll, hnb, hmx, hhist, _, hev⟩ := lrukRemoveEntryFirst_proj st e
  have hfind' : (lrukRemoveEntryFirst st e).1.ll.find? (fun x => x.key == key) = none := by
    rw [hll, hek]
    exact find?_eraseP_of_count _ st.ll hcount
  have hhist' : (lrukRemoveEntryFirst st e).1.history key = none := by
    rw [hhist, hek]
    exact histDelete_self st.history key
  have hwf' : lrukWF (lrukRemoveEntryFirst st e).1 := by
    rw [lrukWF, hnb, hll, lrukSum, hek]
    rw [sumMap_eraseP kentrySize _ st.ll e hfind]
    rw [hwf]
    rfl
  refine ⟨rfl, hfind', hhist', by rw [hev, hek], ?_⟩
  intro v ttl now2 hfit
  have hsc : (((lrukRemoveEntryFirst st e).1.history key).isNone ∨
      (lrukRemoveEntryFirst st e).1.k ≤
        (truncHistory (lrukRemoveEntryFirst st e).1.k
          ((((lrukRemoveEntryFirst st e).1.history key).getD []) ++ [now2])).length) := by
    left
    rw [hhist']
    rfl
  exact find?_isSome_of_head _ _ _
    (lrukAdd_promote_head (lrukRemoveEntryFirst st e).1 key v ttl now2 hfind' hsc hwf'
      (by rw [hmx]; exact hfit))
    (by simp)

def c10State : LRUK String :=
  ⟨0, 3, [⟨"a", "vv", 5, 1⟩], 2, fun _ => none,
    ⟨[⟨"a", 5⟩], hmInsert (fun _ => none) "a" 0⟩⟩

/-- C10 counterexample: after an expired hit removes key "a" and its
history, one single `Add` re-enters it into the cache although K = 2
fresh observations have not been accumulated. -/
theorem lruk_expired_get_readmission_counterexample :
    (lrukGet c10State "a" 10).1 = none ∧
      (lrukGet c10State "a" 10).2.1.history "a" = none ∧
      ((lrukAdd (lrukGet c10State "a" 10).2.1 "a" "x" 0 11).1.ll.find?
        (fun x => x.key == "a")).isSome = true ∧
      (((lrukAdd (lrukGet c10State "a" 10).2.1 "a" "x" 0 11).1.history "a").getD []).length = 1 ∧
      c10State.k = 2 := by
  decide

def c10WitState : LRUK String :=
  ⟨0, 4, [⟨"w", "xyz", 6, 1⟩], 2, fun _ => none,
    ⟨[⟨"w", 6⟩], hmInsert (fun _ => none) "w" 0⟩⟩

theorem lruk_expired_get_contract_amended_witness :
    (c10WitState.ll.countP (fun x => x.key == "w") ≤ 1 ∧
      c10WitState.ll.find? (fun x => x.key == "w") = some ⟨"w", "xyz", 6, 1⟩) ∧
    ((lrukGet c10WitState "w" 9).1 = none ∧
      (lrukGet c10WitState "w" 9).2.1.ll.find? (fun x => x.key == "w") = none ∧
      (lrukGet c10WitState "w" 9).2.1.history "w" = none ∧
      (lrukGet c10WitState "w" 9).2.2 = [("w", "xyz")]) := by
  refine ⟨⟨by decide, by decide⟩, ?_⟩
  have h := lruk_expired_get_contract_amended c10WitState "w" 9 ⟨"w", "xyz", 6, 1⟩
    (by decide) (by decide) (by decide) (by decide) (by decide)
  exact ⟨h.1, h.2.1, h.2.2.1, h.2.2.2.1⟩

/-- C2 counterexample: `lru_k.go`'s `Add` for an existing key adjusts
`nbytes` and never runs the capacity loop, so on a K=1 engine with
`maxBytes = 10`, adding "a"→"x" and then updating "a" to a 10-byte
value leaves `nbytes = 11 > 10`. -/
theorem nbytes_bound_lruk_update_counterexample :
    ((lrukAdd (lrukAdd (lrukNew String 10 1) "a" "x" 0 1).1 "a" "0123456789" 0 2).1.nbytes = 11) ∧
      ((lrukAdd (lrukAdd (lrukNew String 10 1) "a" "x" 0 1).1 "a" "0123456789" 0 2).1.maxBytes = 10) ∧
      ¬((11 : Int) ≤ 10) := by
  decide

/-- C2 (amended): with `maxBytes > 0`, the LRU engine keeps
`nbytes ≤ maxBytes` after every operation of every operation sequence;
the LRU-K engine preserves the bound across every operation except an
`Add` of a key already in the cache (whose value-update path adjusts
`nbytes` without evicting): every `Get`, `RemoveOldest`, and `Add` of
a not-yet-cached key preserves it. -/
theorem nbytes_bound_amended {V W : Type} [GoValue V] [GoValue W] (maxB : Int)
    (hmb : 0 < maxB) :
    (∀ ops : List (EngOp V), (lruRunOps (lruNew V maxB) ops).nbytes ≤ maxB) ∧
    (∀ (st : LRUK W) (op : EngOp W), lrukWF st → st.maxBytes = maxB → st.nbytes ≤ maxB →
      (∀ k v ttl now, op = EngOp.add k v ttl now →
        st.ll.find? (fun x => x.key == k) = none) →
      (lrukStep st op).nbytes ≤ maxB) := by
  constructor
  · intro ops
    have h := lruRunOps_preserves ops (lruNew V maxB) rfl hmb (le_of_lt hmb)
    exact h.2.2
  · intro st op hwf hmx hb hadd
    have h := lrukStep_preserves st op hwf (by rw [hmx]; exact hmb) (by rw [hmx]; exact hb) hadd
    rw [← hmx]
    exact h.2.2

theorem nbytes_bound_amended_witness :
    ((0 : Int) < 10) ∧
      (lruRunOps (lruNew String 10) [EngOp.add "a" "xx" 0 1, EngOp.get "a" 2]).nbytes ≤ 10 ∧
      (lrukStep (lrukNew String 10 2) (EngOp.get "q" 3)).nbytes ≤ 10 := by
  refine ⟨by decide, ?_, ?_⟩
  · exact (nbytes_bound_amended (V := String) (W := String) 10 (by decide)).1
      [EngOp.add "a" "xx" 0 1, EngOp.get "a" 2]
  · exact (nbytes_bound_amended (V := String) (W := String) 10 (by decide)).2
      (lrukNew String 10 2) (EngOp.get "q" 3) (by decide) rfl (by decide)
      (fun _ _ _ _ h => EngOp.noConfusion h)

def c4Heap : HeapState :=
  ⟨[⟨"a", 1⟩, ⟨"b", 2⟩], hmInsert (hmInsert (fun _ => none) "a" 0) "b" 1⟩

/-- C4: `lru.go`'s pooled `removeFromHeap` recycles the pointer it
just moved into the vacated slot; `Put` zeroes it in place, so
removing "a" from the two-item heap [("a",1), ("b",2)] leaves the
remaining item as ("", 0) — its key and expiration changed — while
`heapMap` still maps "b" to index 0, violating
`heapMap[heap[i].Key] = i`. -/
theorem lru_removeFromHeap_pool_corruption :
    (removeFromHeapPooled c4Heap "a").arr = [⟨"", 0⟩] ∧
      (removeFromHeapPooled c4Heap "a").map "b" = some 0 ∧
      c4Heap.arr = [⟨"a", 1⟩, ⟨"b", 2⟩] ∧
      c4Heap.map "b" = some 1 := by
  decide

/-- C5: on `New(10, callback)`, the scenario
`Add("key1","123456"); Add("k2","k2"); Add("k3","k3"); Add("k4","k4")`
fires the eviction callback exactly for "key1" then "k2", in order. -/
theorem lru_eviction_order_scenario :
    (let r1 := lruAdd (lruNew String 10) "key1" "123456" 0 1
     let r2 := lruAdd r1.1 "k2" "k2" 0 2
     let r3 := lruAdd r2.1 "k3" "k3" 0 3
     let r4 := lruAdd r3.1 "k4" "k4" 0 4
     (r1.2 ++ r2.2 ++ r3.2 ++ r4.2).map Prod.fst) = ["key1", "k2"] := by
  decide

theorem groupGetWithTTL_hit (g : Group) (key : String) (ttl now : Int) (v : ByteView)
    (hk : key ≠ "") (hget : (cacheGet g.mainCache key now).1 = some v) :
    (groupGetWithTTL g key ttl now).1 = Except.ok v := by
  unfold groupGetWithTTL
  rw [if_neg hk]
  rcases hpair : cacheGet g.mainCache key now with ⟨o, c'⟩
  rw [hpair] at hget
  simp only at hget
  subst hget
  rfl

theorem cacheAdd_lru (c : FacadeCache) (key : String) (v : ByteView) (ttl now : Int)
    (hstrat : c.strategy = CacheStrategy.lru) :
    cacheAdd c key v ttl now =
      { c with lru := some (lruAdd (c.lru.getD (lruNew ByteView c.cacheBytes)) key v ttl now).1 } := by
  simp only [cacheAdd, hstrat]

theorem cacheGet_lru_some (c : FacadeCache) (key : String) (now : Int) (eng : LRU ByteView)
    (v : ByteView) (hstrat : c.strategy = CacheStrategy.lru) (hl : c.lru = some eng)
    (hv : (lruGet eng key now).1 = some v) :
    (cacheGet c key now).1 = some v := by
  simp only [cacheGet, hstrat, hl]
  exact hv

/-- C6: `Group.GetWithTTL` (hence `Get`) rejects the empty key with an
error before touching the cache, and a non-empty key whose facade
lookup hits returns that value, never the empty-key error. -/
theorem group_empty_key_and_hit_path (g : Group) (ttl now : Int) :
    groupGetWithTTL g "" ttl now = (Except.error "key is required", g) ∧
    (∀ (key : String) (v : ByteView), key ≠ "" →
      (cacheGet g.mainCache key now).1 = some v →
      (groupGetWithTTL g key ttl now).1 = Except.ok v) := by
  constructor
  · simp [groupGetWithTTL]
  · intro key v hk hget
    exact groupGetWithTTL_hit g key ttl now v hk hget

def c6Group : Group := groupNew "g6" 0 (fun _ => Except.error "e6") 3 CacheStrategy.lru 2

theorem group_empty_key_and_hit_path_witness :
    groupGetWithTTL (groupSet c6Group "k" [1] 0 5) "" 3 6 =
        (Except.error "key is required", groupSet c6Group "k" [1] 0 5) ∧
      (groupGetWithTTL (groupSet c6Group "k" [1] 0 5) "k" 3 6).1 = Except.ok ⟨[1]⟩ := by
  refine ⟨(group_empty_key_and_hit_path (groupSet c6Group "k" [1] 0 5) 3 6).1, ?_⟩
  exact (group_empty_key_and_hit_path (groupSet c6Group "k" [1] 0 5) 3 6).2 "k" ⟨[1]⟩
    (by decide) (by decide)

def c8Group : Group := groupNew "g8" 1 (fun _ => Except.error "backend") 0 CacheStrategy.lru 2

/-- C8 counterexample: on a group whose LRU facade holds at most 1
byte, `Set("k", [7,7], 0)` self-evicts the fresh entry inside the
capacity loop, so the immediate `Get("k")` (ttl 0 — no expiry) misses
and surfaces the loader's error instead of the stored value. -/
theorem set_get_roundtrip_counterexample :
    (groupGet (groupSet c8Group "k" [7, 7] 0 5) "k" 5).1 = Except.error "backend" ∧
      (groupGet (groupSet c8Group "k" [7, 7] 0 5) "k" 5).1 ≠ Except.ok ⟨[7, 7]⟩ := by
  have h : (groupGet (groupSet c8Group "k" [7, 7] 0 5) "k" 5).1 = Except.error "backend" := rfl
  refine ⟨h, ?_⟩
  rw [h]
  intro hc
  cases hc

/-- C8 (amended): `Set(k, v, ttl)` followed by `Get(k)` on an
LRU-strategy group returns `v` while `ttl = 0` or the read time is
before set-time + ttl, provided the key is non-empty and the entry
fits the byte budget (`cacheBytes = 0` or
`len(k) + len(v) ≤ cacheBytes`) — without the fit proviso the entry
can be evicted by `Set` itself. -/
theorem set_get_roundtrip_amended (g : Group) (key : String) (value : List Nat)
    (ttl now1 now2 : Int)
    (hstrat : g.mainCache.strategy = CacheStrategy.lru)
    (heng : ∀ eng, g.mainCache.lru = some eng →
      lruWF eng ∧ eng.maxBytes = g.mainCache.cacheBytes)
    (hk : key ≠ "")
    (hfit : g.mainCache.cacheBytes = 0 ∨
      (key.length : Int) + (value.length : Int) ≤ g.mainCache.cacheBytes)
    (htime : ttl = 0 ∨ now2 < now1 + ttl) :
    (groupGet (groupSet g key value ttl now1) key now2).1 = Except.ok ⟨value⟩ := by
  have hengwf : lruWF (g.mainCache.lru.getD (lruNew ByteView g.mainCache.cacheBytes)) ∧
      (g.mainCache.lru.getD (lruNew ByteView g.mainCache.cacheBytes)).maxBytes =
        g.mainCache.cacheBytes := by
    cases hl : g.mainCache.lru with
    | none => exact ⟨rfl, rfl⟩
    | some eng => exact heng eng hl
  have hadd := lruAdd_head (g.mainCache.lru.getD (lruNew ByteView g.mainCache.cacheBytes))
    key (⟨value⟩ : ByteView) ttl now1 hengwf.1
    (by
      rw [hengwf.2]
      rcases hfit with h | h
      · exact Or.inl h
      · exact Or.inr (by simpa using h))
  obtain ⟨t, hll⟩ : ∃ t, (lruAdd (g.mainCache.lru.getD (lruNew ByteView g.mainCache.cacheBytes))
      key (⟨value⟩ : ByteView) ttl now1).1.ll =
      Entry.mk key ⟨value⟩ (if 0 < ttl then now1 + ttl else 0) :: t := by
    rcases hl2 : (lruAdd (g.mainCache.lru.getD (lruNew ByteView g.mainCache.cacheBytes))
        key (⟨value⟩ : ByteView) ttl now1).1.ll with _ | ⟨a, t⟩
    · rw [hl2] at hadd
      simp at hadd
    · rw [hl2] at hadd
      simp only [List.head?_cons, Option.some_inj] at hadd
      exact ⟨t, by rw [hadd.1]⟩
  have hnex : ¬(0 < (if 0 < ttl then now1 + ttl else 0 : Int) ∧
      (if 0 < ttl then now1 + ttl else 0 : Int) < now2) := by
    by_cases h0 : 0 < ttl
    · rw [if_pos h0]
      rcases htime with h | h
      · omega
      · intro hc
        omega
    · rw [if_neg h0]
      intro hc
      exact absurd hc.1 (by omega)
  have hfindnew : (lruAdd (g.mainCache.lru.getD (lruNew ByteView g.mainCache.cacheBytes))
      key (⟨value⟩ : ByteView) ttl now1).1.ll.find? (fun x => x.key == key) =
      some (Entry.mk key ⟨value⟩ (if 0 < ttl then now1 + ttl else 0)) := by
    rw [hll]
    exact List.find?_cons_of_pos _ (by simp)
  have hgetv := lruGet_eq_hit _ key now2 _ hfindnew hnex
  apply groupGetWithTTL_hit _ key _ now2 (⟨value⟩ : ByteView) hk
  show (cacheGet (cacheAdd g.mainCache key ⟨value⟩ ttl now1) key now2).1 = _
  apply cacheGet_lru_some _ key now2
    (lruAdd (g.mainCache.lru.getD (lruNew ByteView g.mainCache.cacheBytes))
      key (⟨value⟩ : ByteView) ttl now1).1 _
    (by rw [cacheAdd_lru _ _ _ _ _ hstrat]; exact hstrat)
    (by rw [cacheAdd_lru _ _ _ _ _ hstrat])
  rw [hgetv]

def c8WitGroup : Group := groupNew "g8w" 16 (fun _ => Except.error "w8") 0 CacheStrategy.lru 2

theorem set_get_roundtrip_amended_witness :
    (("kw" : String) ≠ "") ∧
      ((2 : Int) + 3 ≤ 16) ∧
      (groupGet (groupSet c8WitGroup "kw" [1, 2, 3] 4 10) "kw" 11).1 =
        Except.ok ⟨[1, 2, 3]⟩ := by
  refine ⟨by decide, by decide, ?_⟩
  exact set_get_roundtrip_amended c8WitGroup "kw" [1, 2, 3] 4 10 11 rfl
    (fun eng h => by
      rw [show c8WitGroup.mainCache.lru = some (lruNew ByteView 16) from rfl] at h
      cases h
      exact ⟨rfl, rfl⟩)
    (by decide) (by decide) (by decide)

/-- C7 counterexample: `Submit` on a closed pool returns nil without
enqueuing or running the task — the task is dropped. -/
theorem pool_submit_after_close_drops :
    (poolSubmit (poolClose (poolNew 2 3)) 0).2 = SubmitOutcome.dropped ∧
      (poolSubmit (poolClose (poolNew 2 3)) 0).1.tasks = [] := by
  decide

/-- C7 (amended): while the pool is open, `Submit` never blocks and
never loses the task — it enqueues when the buffered channel has room
and otherwise runs the task on a fresh goroutine; after `Close`,
`Submit` returns nil without executing or enqueuing the task. -/
theorem pool_submit_contract_amended (p : GoroutinePool) (task : Nat) :
    (p.closed = true → poolSubmit p task = (p, SubmitOutcome.dropped)) ∧
    (p.closed = false →
      (p.tasks.length < p.queueCap →
        poolSubmit p task = ({ p with tasks := p.tasks ++ [task] }, SubmitOutcome.enqueued)) ∧
      (¬p.tasks.length < p.queueCap →
        poolSubmit p task = (p, SubmitOutcome.ranOnNewGoroutine))) := by
  refine ⟨fun hc => ?_, fun hc => ⟨fun hq => ?_, fun hq => ?_⟩⟩
  · simp [poolSubmit, hc]
  · simp [poolSubmit, hc, hq]
  · simp [poolSubmit, hc, hq]

theorem pool_submit_contract_amended_witness :
    ((poolClose (poolNew 2 3)).closed = true) ∧
      poolSubmit (poolClose (poolNew 2 3)) 5 = (poolClose (poolNew 2 3), SubmitOutcome.dropped) ∧
      ((poolNew 2 3).closed = false) ∧
      poolSubmit (poolNew 2 3) 5 = ({ poolNew 2 3 with tasks := [5] }, SubmitOutcome.enqueued) := by
  refine ⟨by decide, (pool_submit_contract_amended (poolClose (poolNew 2 3)) 5).1 (by decide),
    by decide, ?_⟩
  exact ((pool_submit_contract_amended (poolNew 2 3) 5).2 (by decide)).1 (by decide)

/-- The in-flight indicator: 1 while a call is in flight. -/
def sfInd (o : Option Nat) : Nat :=
  match o with
  | some _ => 1
  | none => 0

theorem sfStep_counting (s : SF) (ev : SFEvent)
    (h : ∀ k, s.invocations k = s.completed k + sfInd (s.inflight k)) :
    ∀ k, (sfStep s ev).invocations k = (sfStep s ev).completed k + sfInd ((sfStep s ev).inflight k) := by
  intro k
  cases ev with
  | arrive key =>
    cases hin : s.inflight key with
    | some n =>
      simp only [sfStep, hin]
      by_cases hk : k = key
      · subst hk
        simp only [if_pos rfl]
        rw [h k, hin]
        rfl
      · simp only [if_neg hk]
        exact h k
    | none =>
      simp only [sfStep, hin]
      by_cases hk : k = key
      · subst hk
        simp only [if_pos rfl]
        rw [h k, hin]
        rfl
      · simp only [if_neg hk]
        exact h k
  | complete key r =>
    cases hin : s.inflight key with
    | some n =>
      simp only [sfStep, hin]
      by_cases hk : k = key
      · subst hk
        simp only [if_pos rfl]
        rw [h k, hin]
        rfl
      · simp only [if_neg hk]
        exact h k
    | none =>
      simp only [sfStep, hin]
      exact h k

theorem sfRun_counting :
    ∀ (events : List SFEvent) (s : SF),
      (∀ k, s.invocations k = s.completed k + sfInd (s.inflight k)) →
      ∀ k, (events.foldl sfStep s).invocations k =
        (events.foldl sfStep s).completed k + sfInd ((events.foldl sfStep s).inflight k)
  | [], _, h => h
  | ev :: events, s, h => by
    rw [show (ev :: events).foldl sfStep s = events.foldl sfStep (sfStep s ev) from rfl]
    exact sfRun_counting events (sfStep s ev) (sfStep_counting s ev h)

/-- C9 (spec-modelled single-flight): per key, the number of `fn`
invocations always equals the number of completed flights plus one
while a call is in flight (so exactly one invocation per completed
flight); a completion hands every joined caller the same result; and
a fresh `Do` after completion invokes `fn` again. -/
theorem singleflight_contract :
    (∀ (events : List SFEvent) (k : String),
      (sfRun events).invocations k =
        (sfRun events).completed k + sfInd ((sfRun events).inflight k)) ∧
    (∀ (s : SF) (k : String) (r x : Nat), x ∈ sfOutputs s (SFEvent.complete k r) → x = r) ∧
    (∀ (s : SF) (k : String), s.inflight k = none →
      (sfStep s (SFEvent.arrive k)).invocations k = s.invocations k + 1) := by
  refine ⟨?_, ?_, ?_⟩
  · intro events k
    exact sfRun_counting events sfInit (fun _ => rfl) k
  · intro s k r x hx
    simp only [sfOutputs] at hx
    cases hin : s.inflight k with
    | some n =>
      rw [hin] at hx
      exact List.eq_of_mem_replicate hx
    | none =>
      rw [hin] at hx
      simp at hx
  · intro s k hin
    simp [sfStep, hin]

def sfW : SF := ⟨fun k => if k = "k" then some 2 else none, fun _ => 0, fun _ => 0⟩

theorem singleflight_contract_witness :
    ((sfRun [SFEvent.arrive "k", SFEvent.arrive "k", SFEvent.complete "k" 5]).invocations "k" =
      (sfRun [SFEvent.arrive "k", SFEvent.arrive "k", SFEvent.complete "k" 5]).completed "k" +
        sfInd ((sfRun [SFEvent.arrive "k", SFEvent.arrive "k",
          SFEvent.complete "k" 5]).inflight "k")) ∧
      ((7 : Nat) ∈ sfOutputs sfW (SFEvent.complete "k" 7)) ∧ (7 : Nat) = 7 := by
  refine ⟨singleflight_contract.1 [SFEvent.arrive "k", SFEvent.arrive "k",
    SFEvent.complete "k" 5] "k", ?_, ?_⟩
  · decide
  · exact singleflight_contract.2.1 sfW "k" 7 7 (by decide)

end GoCache
